import Mathlib

/-!
Verification of the reachability-driven GraphQL schema projector of
protoc-gen-graphql.  The definitions below are a shallow embedding of the
Go sources: the type analyzer (dual-context variant in the current
analyzer file and the older single-set variant), the name resolver, the
endpoint filter, and the schema projector.  Go maps from strings are
modelled as association lists where a new binding is consed to the front
and lookup takes the first match (last write wins, as in Go assignment);
Go map-membership sets are modelled as lists of keys with list
membership.  The recursive marking functions, whose termination in Go
rests on the visited/in-progress maps, are modelled with an explicit
fuel parameter returning none when fuel runs out; a fuel bound derived
from the registry size is proved sufficient.
-/

namespace ProtoGql

/-- Field kind tag of a protobuf field descriptor: the analyzer only
distinguishes message-typed fields, enum-typed fields and everything
else (scalars). -/
inductive FieldKind where
  | scalar : FieldKind
  | message : FieldKind
  | enum : FieldKind
deriving DecidableEq, Repr

/-- FieldDescriptorProto restricted to what the analyzer and projector
read: name, kind tag and the referenced type name (empty for scalars). -/
structure FieldD where
  name : String
  kind : FieldKind
  typeName : String
deriving DecidableEq, Repr

/-- EnumDescriptorProto: name and value names. -/
structure EnumD where
  name : String
  values : List String
deriving DecidableEq, Repr

/-- DescriptorProto: message name, fields, nested messages, nested enums. -/
inductive MsgD where
  | mk (name : String) (fields : List FieldD) (nested : List MsgD) (enums : List EnumD)

def MsgD.name : MsgD → String
  | .mk n _ _ _ => n

def MsgD.fields : MsgD → List FieldD
  | .mk _ f _ _ => f

def MsgD.nested : MsgD → List MsgD
  | .mk _ _ ns _ => ns

def MsgD.enums : MsgD → List EnumD
  | .mk _ _ _ es => es

/-- Go test len(s) > 0 && s[0] == the separator byte, written on the
character list so that it evaluates inside the kernel. -/
def startsWithDot (s : String) : Bool :=
  match s.data with
  | [] => false
  | c :: _ => c == '.'

/-- Go suffix test s[len(s)-len(suffix):] == suffix, written on the
character lists so that it evaluates inside the kernel. -/
def strEndsWith (s suffx : String) : Bool :=
  List.isSuffixOf suffx.data s.data

/-- The fields of TypeAnalyzer that every marking function reads and
none ever writes: the two registries and the package-name index.  Both
analyzer variants carry exactly these fields with identical
registration code. -/
structure Env where
  typeRegistry : List (String × MsgD)
  enumRegistry : List (String × EnumD)
  packageName : String
  packageNames : List String

/-- Go map read typeRegistry[name]: first match in the association list. -/
def lookupType (env : Env) (k : String) : Option MsgD :=
  (env.typeRegistry.find? (fun p => p.1 == k)).map (fun p => p.2)

def hasType (env : Env) (k : String) : Bool :=
  (lookupType env k).isSome

def lookupEnum (env : Env) (k : String) : Option EnumD :=
  (env.enumRegistry.find? (fun p => p.1 == k)).map (fun p => p.2)

def hasEnum (env : Env) (k : String) : Bool :=
  (lookupEnum env k).isSome

/-- ResolveTypeName: tries the reference as written (when it starts with
the separator), then qualified under the primary package, then under
every known package in index order, then with a bare leading separator;
otherwise returns the reference unchanged. -/
def ResolveTypeName (env : Env) (typeName : String) : String :=
  if startsWithDot typeName && hasType env typeName then typeName
  else if env.packageName != "" && hasType env ("." ++ env.packageName ++ "." ++ typeName) then
    "." ++ env.packageName ++ "." ++ typeName
  else
    match env.packageNames.find? (fun p => p != "" && hasType env ("." ++ p ++ "." ++ typeName)) with
    | some p => "." ++ p ++ "." ++ typeName
    | none =>
      if hasType env ("." ++ typeName) then "." ++ typeName else typeName

/-- ResolveEnumName: same candidate order as ResolveTypeName, against the
enum registry. -/
def ResolveEnumName (env : Env) (enumName : String) : String :=
  if startsWithDot enumName && hasEnum env enumName then enumName
  else if env.packageName != "" && hasEnum env ("." ++ env.packageName ++ "." ++ enumName) then
    "." ++ env.packageName ++ "." ++ enumName
  else
    match env.packageNames.find? (fun p => p != "" && hasEnum env ("." ++ p ++ "." ++ enumName)) with
    | some p => "." ++ p ++ "." ++ enumName
    | none =>
      if hasEnum env ("." ++ enumName) then "." ++ enumName else enumName

/-- The mutable state of one marking context: the reachable set, the
in-progress set of the same context, and the shared reachable-enum
set. -/
structure MarkState where
  reach : List String
  inProg : List String
  enums : List String

/-- Common body of MarkTypeReachableAsInput, MarkTypeReachableAsOutput
and the single-set MarkTypeReachable: the three Go functions are
textually identical apart from which reachable/in-progress pair they
touch, so they are embedded as one fueled core over that pair plus the
shared enum set.  Returns none when fuel runs out. -/
def markCore (env : Env) : Nat → MarkState → String → Option MarkState
  | 0, _, _ => none
  | fuel + 1, s, typeName =>
    let resolvedName := ResolveTypeName env typeName
    if s.reach.contains resolvedName || s.inProg.contains resolvedName then
      some s
    else
      match lookupType env resolvedName with
      | none => some s
      | some descriptor =>
        let s1 : MarkState :=
          { s with inProg := resolvedName :: s.inProg, reach := resolvedName :: s.reach }
        match descriptor.nested.foldlM
            (fun t n => markCore env fuel t (resolvedName ++ "." ++ n.name)) s1 with
        | none => none
        | some s2 =>
          let s3 : MarkState :=
            { s2 with enums :=
                descriptor.enums.foldl (fun es e => (resolvedName ++ "." ++ e.name) :: es) s2.enums }
          match descriptor.fields.foldlM
              (fun t f =>
                match f.kind with
                | FieldKind.message => markCore env fuel t f.typeName
                | FieldKind.enum =>
                  some { t with enums := ResolveEnumName env f.typeName :: t.enums }
                | FieldKind.scalar => some t) s3 with
          | none => none
          | some s4 => some { s4 with inProg := s4.inProg.erase resolvedName }

/-- TypeAnalyzer, dual-context variant: separate input and output
reachable sets plus per-context in-progress markers. -/
structure Analyzer where
  env : Env
  inputReachableTypes : List String
  outputReachableTypes : List String
  reachableEnums : List String
  inProgressInput : List String
  inProgressOutput : List String

/-- TypeAnalyzer, single-set variant (the older analyzer file). -/
structure AnalyzerS where
  env : Env
  reachableTypes : List String
  reachableEnums : List String
  inProgress : List String

def Analyzer.inputState (ta : Analyzer) : MarkState :=
  ⟨ta.inputReachableTypes, ta.inProgressInput, ta.reachableEnums⟩

def Analyzer.outputState (ta : Analyzer) : MarkState :=
  ⟨ta.outputReachableTypes, ta.inProgressOutput, ta.reachableEnums⟩

def AnalyzerS.state (ta : AnalyzerS) : MarkState :=
  ⟨ta.reachableTypes, ta.inProgress, ta.reachableEnums⟩

/-- MarkTypeReachableAsInput: runs the marking body on the
input-reachable and input-in-progress sets. -/
def MarkTypeReachableAsInput (fuel : Nat) (ta : Analyzer) (typeName : String) : Option Analyzer :=
  (markCore ta.env fuel ta.inputState typeName).map fun s =>
    { ta with inputReachableTypes := s.reach, inProgressInput := s.inProg,
              reachableEnums := s.enums }

/-- MarkTypeReachableAsOutput: runs the marking body on the
output-reachable and output-in-progress sets. -/
def MarkTypeReachableAsOutput (fuel : Nat) (ta : Analyzer) (typeName : String) : Option Analyzer :=
  (markCore ta.env fuel ta.outputState typeName).map fun s =>
    { ta with outputReachableTypes := s.reach, inProgressOutput := s.inProg,
              reachableEnums := s.enums }

/-- MarkTypeReachable of the single-set variant: the same marking body on
its one reachable/in-progress pair. -/
def MarkTypeReachable (fuel : Nat) (ta : AnalyzerS) (typeName : String) : Option AnalyzerS :=
  (markCore ta.env fuel ta.state typeName).map fun s =>
    { ta with reachableTypes := s.reach, inProgress := s.inProg, reachableEnums := s.enums }

/-- Qualified-name computation shared by registration and projection: a
top-level name is qualified by the package (or bare when the package is
empty), a nested name by the enclosing qualified name. -/
def fullNameOf (pkg pre nm : String) : String :=
  if pre == "" then
    (if pkg != "" then "." ++ pkg ++ "." ++ nm else "." ++ nm)
  else pre ++ "." ++ nm

/-- registerNestedEnums: registers each nested enum under
parent-qualified name. -/
def registerNestedEnums (enums : List EnumD) (pre : String)
    (ereg : List (String × EnumD)) : List (String × EnumD) :=
  enums.foldl (fun ereg e => (pre ++ "." ++ e.name, e) :: ereg) ereg

/-- RegisterEnumsFromFile: registers top-level enums of one file. -/
def registerEnumsFromFile (enums : List EnumD) (pre : String) (pkg : String)
    (ereg : List (String × EnumD)) : List (String × EnumD) :=
  enums.foldl
    (fun ereg e =>
      let fullName := fullNameOf pkg pre e.name
      (fullName, e) :: ereg)
    ereg

mutual

/-- RegisterTypesFromFile, split into the loop body (one message) and the
loop (a message list) so that the recursion is structural: one message is
registered under its qualified name, then its nested messages are
registered with the parent name as the new name stem, then its nested
enums. -/
def registerTypesOne : MsgD → String → String →
    List (String × MsgD) → List (String × EnumD) →
    List (String × MsgD) × List (String × EnumD)
  | MsgD.mk nm fl ns es, pre, pkg, reg, ereg =>
    let fullName := fullNameOf pkg pre nm
    let reg := (fullName, MsgD.mk nm fl ns es) :: reg
    let regs :=
      if ns.length > 0 then registerTypesFromFile ns fullName pkg reg ereg else (reg, ereg)
    let ereg2 := if es.length > 0 then registerNestedEnums es fullName regs.2 else regs.2
    (regs.1, ereg2)

def registerTypesFromFile : List MsgD → String → String →
    List (String × MsgD) → List (String × EnumD) →
    List (String × MsgD) × List (String × EnumD)
  | [], _, _, reg, ereg => (reg, ereg)
  | m :: rest, pre, pkg, reg, ereg =>
    let regs := registerTypesOne m pre pkg reg ereg
    registerTypesFromFile rest pre pkg regs.1 regs.2

end

/-- GqlInput option record of an RPC method annotation. -/
structure GqlInput where
  param : String
  type : String
  optional : Bool
  primitive : Bool
  array : Bool
  empty : Bool
deriving DecidableEq, Repr

/-- The zero GqlInput record (proto3 defaults). -/
def emptyGqlInput : GqlInput := ⟨"", "", false, false, false, false⟩

/-- MethodOptions annotation record of an RPC method. -/
structure MethodOptions where
  kind : String
  target : String
  skip : Bool
  gqlInput : Option GqlInput
  gqlOutput : String
deriving DecidableEq, Repr

/-- The zero MethodOptions record returned when a method carries no
extension. -/
def defaultMethodOptions : MethodOptions := ⟨"", "", false, none, ""⟩

/-- MethodDescriptorProto restricted to what the analyzer and projector
read. -/
structure MethodD where
  name : String
  inputType : String
  outputType : String
  options : Option MethodOptions

/-- ServiceDescriptorProto. -/
structure ServiceD where
  name : String
  methods : List MethodD

/-- FileDescriptorProto restricted to what the analyzer reads. -/
structure FileD where
  package : String
  messages : List MsgD
  enums : List EnumD
  services : List ServiceD

/-- getMethodOptions: the extension record when present, the zero record
otherwise. -/
def getMethodOptions (m : MethodD) : MethodOptions :=
  m.options.getD defaultMethodOptions

/-- shouldIncludeMethod: skip excludes unconditionally; the audience
target or the method target being a wildcard admits; otherwise exact
string equality decides. -/
def shouldIncludeMethod (cliTarget : String) (methodOptions : MethodOptions) : Bool :=
  if methodOptions.skip then false
  else if cliTarget == "all" || cliTarget == "*" ||
      methodOptions.target == "all" || methodOptions.target == "*" then true
  else cliTarget == methodOptions.target

/-- Shared environment construction of NewTypeAnalyzer (identical in both
analyzer variants): primary package from the first file, package index
from all files, then per-file type and enum registration. -/
def buildEnv (protoFiles : List FileD) : Env :=
  let primary := match protoFiles with | [] => "" | f :: _ => f.package
  protoFiles.foldl
    (fun env protoFile =>
      let env := { env with packageNames := env.packageNames ++ [protoFile.package] }
      let regs := registerTypesFromFile protoFile.messages "" protoFile.package
        env.typeRegistry env.enumRegistry
      let ereg := registerEnumsFromFile protoFile.enums "" protoFile.package regs.2
      { env with typeRegistry := regs.1, enumRegistry := ereg })
    { typeRegistry := [], enumRegistry := [], packageName := primary, packageNames := [] }

/-- NewTypeAnalyzer, dual-context variant: fresh empty sets over the
registered environment. -/
def NewTypeAnalyzer (protoFiles : List FileD) : Analyzer :=
  { env := buildEnv protoFiles, inputReachableTypes := [], outputReachableTypes := [],
    reachableEnums := [], inProgressInput := [], inProgressOutput := [] }

/-- NewTypeAnalyzer, single-set variant. -/
def NewTypeAnalyzerS (protoFiles : List FileD) : AnalyzerS :=
  { env := buildEnv protoFiles, reachableTypes := [], reachableEnums := [], inProgress := [] }

/-- One method step of the dual-context AnalyzeRPCDependencies. -/
def analyzeMethodDual (fuel : Nat) (target : String) (ta : Analyzer) (m : MethodD) :
    Option Analyzer :=
  let methodOptions := getMethodOptions m
  if !shouldIncludeMethod target methodOptions then some ta
  else
    match (if m.inputType != "" then MarkTypeReachableAsInput fuel ta m.inputType else some ta) with
    | none => none
    | some ta =>
      if m.outputType != "" then MarkTypeReachableAsOutput fuel ta m.outputType else some ta

/-- AnalyzeRPCDependencies, dual-context variant: for every admitted
method, mark its input type in the input context and its output type in
the output context. -/
def AnalyzeRPCDependencies (fuel : Nat) (ta : Analyzer) (services : List ServiceD)
    (target : String) : Option Analyzer :=
  services.foldlM (fun ta service =>
    service.methods.foldlM (fun ta m => analyzeMethodDual fuel target ta m) ta) ta

/-- One method step of the single-set AnalyzeRPCDependencies. -/
def analyzeMethodSingle (fuel : Nat) (target : String) (ta : AnalyzerS) (m : MethodD) :
    Option AnalyzerS :=
  let methodOptions := getMethodOptions m
  if !shouldIncludeMethod target methodOptions then some ta
  else
    match (if m.inputType != "" then MarkTypeReachable fuel ta m.inputType else some ta) with
    | none => none
    | some ta =>
      if m.outputType != "" then MarkTypeReachable fuel ta m.outputType else some ta

/-- AnalyzeRPCDependencies, single-set variant: both the input and the
output type of every admitted method go into the one reachable set. -/
def AnalyzeRPCDependenciesS (fuel : Nat) (ta : AnalyzerS) (services : List ServiceD)
    (target : String) : Option AnalyzerS :=
  services.foldlM (fun ta service =>
    service.methods.foldlM (fun ta m => analyzeMethodSingle fuel target ta m) ta) ta

/-- IsInputReachable: exact match, then for short names the
primary-qualified, other-package-qualified, bare-qualified and
tail-suffix candidates against the input-reachable set. -/
def IsInputReachable (ta : Analyzer) (typeName : String) : Bool :=
  if ta.inputReachableTypes.contains typeName then true
  else if 0 < typeName.data.length && !startsWithDot typeName then
    if ta.env.packageName != "" &&
        ta.inputReachableTypes.contains ("." ++ ta.env.packageName ++ "." ++ typeName) then true
    else if ta.env.packageNames.any (fun p => p != "" && p != ta.env.packageName &&
        ta.inputReachableTypes.contains ("." ++ p ++ "." ++ typeName)) then true
    else if ta.inputReachableTypes.contains ("." ++ typeName) then true
    else ta.inputReachableTypes.any (fun r => strEndsWith r ("." ++ typeName))
  else false

/-- IsOutputReachable: the same lookup against the output-reachable set. -/
def IsOutputReachable (ta : Analyzer) (typeName : String) : Bool :=
  if ta.outputReachableTypes.contains typeName then true
  else if 0 < typeName.data.length && !startsWithDot typeName then
    if ta.env.packageName != "" &&
        ta.outputReachableTypes.contains ("." ++ ta.env.packageName ++ "." ++ typeName) then true
    else if ta.env.packageNames.any (fun p => p != "" && p != ta.env.packageName &&
        ta.outputReachableTypes.contains ("." ++ p ++ "." ++ typeName)) then true
    else if ta.outputReachableTypes.contains ("." ++ typeName) then true
    else ta.outputReachableTypes.any (fun r => strEndsWith r ("." ++ typeName))
  else false

/-- IsTypeReachable: the either-context query, each candidate phase
checking both the input and the output set. -/
def IsTypeReachable (ta : Analyzer) (typeName : String) : Bool :=
  if ta.inputReachableTypes.contains typeName ||
      ta.outputReachableTypes.contains typeName then true
  else if 0 < typeName.data.length && !startsWithDot typeName then
    if ta.env.packageName != "" &&
        (ta.inputReachableTypes.contains ("." ++ ta.env.packageName ++ "." ++ typeName) ||
         ta.outputReachableTypes.contains ("." ++ ta.env.packageName ++ "." ++ typeName)) then true
    else if ta.env.packageNames.any (fun p => p != "" && p != ta.env.packageName &&
        (ta.inputReachableTypes.contains ("." ++ p ++ "." ++ typeName) ||
         ta.outputReachableTypes.contains ("." ++ p ++ "." ++ typeName))) then true
    else if ta.inputReachableTypes.contains ("." ++ typeName) ||
        ta.outputReachableTypes.contains ("." ++ typeName) then true
    else ta.inputReachableTypes.any (fun r => strEndsWith r ("." ++ typeName)) ||
      ta.outputReachableTypes.any (fun r => strEndsWith r ("." ++ typeName))
  else false

/-- IsEnumReachable: the same lookup against the reachable-enum set. -/
def IsEnumReachable (ta : Analyzer) (enumName : String) : Bool :=
  if ta.reachableEnums.contains enumName then true
  else if 0 < enumName.data.length && !startsWithDot enumName then
    if ta.env.packageName != "" &&
        ta.reachableEnums.contains ("." ++ ta.env.packageName ++ "." ++ enumName) then true
    else if ta.env.packageNames.any (fun p => p != "" && p != ta.env.packageName &&
        ta.reachableEnums.contains ("." ++ p ++ "." ++ enumName)) then true
    else if ta.reachableEnums.contains ("." ++ enumName) then true
    else ta.reachableEnums.any (fun r => strEndsWith r ("." ++ enumName))
  else false

/-- Character-list take, the kernel-friendly analog of a Go slice s[:n]. -/
def strTake (s : String) (n : Nat) : String := ⟨s.data.take n⟩

/-- Character-list drop, the kernel-friendly analog of a Go slice s[n:]. -/
def strDrop (s : String) (n : Nat) : String := ⟨s.data.drop n⟩

/-- Character count of a string. -/
def strLen (s : String) : Nat := s.data.length

/-- Go strings.TrimPrefix: drop the prefix when present, otherwise return
the string unchanged. -/
def trimPre (s p : String) : String :=
  if p.data.isPrefixOf s.data then ⟨s.data.drop p.data.length⟩ else s

/-- Modelled from the spec: utils.UppercaseFirst lives in pkg/utils,
which is not under src/; the spec describes it as first-letter
capitalization. -/
def uppercaseFirst (s : String) : String :=
  match s.data with
  | [] => s
  | c :: cs => ⟨Char.toUpper c :: cs⟩

/-- isEmpty: the designated empty sentinel test on a resolved gql type
name. -/
def isEmpty (t : String) : Bool := t == "Empty"

/-- isArray: first character is an opening bracket and the character at
index length-1 onward is a closing bracket. -/
def isArray (t : GqlInput) (length : Nat) : Bool :=
  let f := strTake t.type 1
  let l := strDrop t.type (length - 1)
  f == "[" && l == "]"

/-- isPrimitive: the scalar gql type names. -/
def isPrimitive (t : String) : Bool :=
  match t with
  | "String" => true
  | "Boolean" => true
  | "Bool" => true
  | "Int" => true
  | "Float" => true
  | _ => false

/-- parseType: normalizes an explicit gql_input type override, stripping
an array bracket pair, capitalizing, and setting the primitive / empty
flags. -/
def parseType (input : GqlInput) : GqlInput :=
  if input.type == "" then input
  else
    let input :=
      if isArray input (strLen input.type) then
        { input with array := true,
                     type := uppercaseFirst (strTake (strDrop input.type 1) (strLen input.type - 2)) }
      else { input with type := uppercaseFirst input.type }
    if isPrimitive input.type then
      let input := { input with primitive := true }
      if input.type == "Bool" then { input with type := "Boolean" } else input
    else if isEmpty input.type then { input with empty := true }
    else input

/-- getGqlInputParam: the explicit parameter name when present, the
default parameter name otherwise (syntax.Input, whose package is not
under src/; the bundled README shows the default parameter is named
input). -/
def getGqlInputParam (input : GqlInput) : String :=
  if input.param != "" then input.param else "input"

/-- getGqlInputType: derives the query/mutation input record from the
optional gql_input override and the method input type name. -/
def getGqlInputType (input : Option GqlInput) (mi : String) (packageName : String) : GqlInput :=
  match input with
  | none =>
    let input : GqlInput :=
      { emptyGqlInput with type := "I" ++ trimPre mi ("." ++ packageName ++ ".") }
    { input with param := getGqlInputParam input }
  | some input =>
    let input :=
      if input.type != "" then
        let input := parseType input
        if !input.primitive && !input.empty then { input with type := "I" ++ input.type }
        else if input.array then { input with type := "[" ++ input.type ++ "]" }
        else { input with type := "I" ++ trimPre mi ("." ++ packageName ++ ".") }
      else { input with type := "I" ++ trimPre mi ("." ++ packageName ++ ".") }
    { input with param := getGqlInputParam input }

/-- getGqlOutputType: the capitalized explicit override when present,
otherwise the method output type name with the package qualifier
trimmed. -/
def getGqlOutputType (outputType : String) (mo : String) (packageName : String) : String :=
  if outputType != "" then uppercaseFirst outputType
  else trimPre mo ("." ++ packageName ++ ".")

/-- checkCompilerTarget: wildcard audience target, or exact equality. -/
def checkCompilerTarget (compilerTarget : String) (opts : MethodOptions) : Bool :=
  if compilerTarget == "all" || compilerTarget == "*" then true
  else compilerTarget == opts.target

/-- skipMethod: the projector-side endpoint filter. -/
def skipMethod (compilerTarget : String) (opts : MethodOptions) : Bool :=
  if opts.skip then true
  else if checkCompilerTarget compilerTarget opts then false
  else if opts.target == "all" || opts.target == "*" then false
  else true

/-- An emitted object type: declared short name plus one field record per
message field (generateFields maps each message field to one schema
field; the per-field name and type rendering lives in packages that are
not under src/ and is not needed by any claim). -/
structure ObjectTypeL where
  name : String
  fields : List FieldD
deriving DecidableEq, Repr

mutual

/-- Loop body of makeObjectTypesWithPrefix for one message: skip when the
either-context reachability query fails on the qualified name; otherwise,
when the message has at least one field, project its nested messages
(with the qualified name as the new stem), keep its reachable nested
enums, and emit the object type itself. -/
def makeObjectTypesOne (ta : Analyzer) (pkg : String) : MsgD → String →
    List ObjectTypeL × List EnumD
  | MsgD.mk nm fl ns es, pre =>
    let fullName := fullNameOf pkg pre nm
    if !IsTypeReachable ta fullName then ([], [])
    else if 0 < fl.length then
      let nestedRes := makeObjectTypesAux ta pkg ns fullName
      let hereEnums := es.filter (fun e => IsEnumReachable ta (fullName ++ "." ++ e.name))
      (nestedRes.1 ++ [⟨nm, fl⟩], nestedRes.2 ++ hereEnums)
    else ([], [])

/-- makeObjectTypesWithPrefix over a message list. -/
def makeObjectTypesAux (ta : Analyzer) (pkg : String) : List MsgD → String →
    List ObjectTypeL × List EnumD
  | [], _ => ([], [])
  | m :: rest, pre =>
    let here := makeObjectTypesOne ta pkg m pre
    let restRes := makeObjectTypesAux ta pkg rest pre
    (here.1 ++ restRes.1, here.2 ++ restRes.2)

end

/-- makeObjectTypes: the top-level entry starts with an empty name stem. -/
def makeObjectTypes (ta : Analyzer) (pkg : String) (messages : List MsgD) :
    List ObjectTypeL × List EnumD :=
  makeObjectTypesAux ta pkg messages ""

/-- A query entry: method name, derived input record, payload type name. -/
structure QueryL where
  name : String
  input : GqlInput
  payload : String
deriving DecidableEq, Repr

/-- A mutation entry, same shape as a query entry. -/
structure MutationL where
  name : String
  input : GqlInput
  payload : String
deriving DecidableEq, Repr

/-- AddQueriesAndMutations: every non-skipped method becomes a mutation
entry when its kind says so and a query entry otherwise. -/
def addQueriesAndMutations (pkg : String) (target : String) (services : List ServiceD) :
    List QueryL × List MutationL :=
  services.foldl
    (fun acc service =>
      service.methods.foldl
        (fun acc method =>
          let methodOptions := getMethodOptions method
          if skipMethod target methodOptions then acc
          else if methodOptions.kind == "mutation" || methodOptions.kind == "Mutation" then
            (acc.1,
             acc.2 ++ [⟨method.name,
               getGqlInputType methodOptions.gqlInput method.inputType pkg,
               getGqlOutputType methodOptions.gqlOutput method.outputType pkg⟩])
          else
            (acc.1 ++ [⟨method.name,
               getGqlInputType methodOptions.gqlInput method.inputType pkg,
               getGqlOutputType methodOptions.gqlOutput method.outputType pkg⟩],
             acc.2))
        acc)
    ([], [])

/-- Modelled from the spec: the schema text renderer (the generate step
of the Schema, which is not under src/) attaches to each query/mutation
entry its single named input parameter, except that an entry whose
resolved input is the designated empty sentinel gets no parameter at
all. -/
def renderedParams (input : GqlInput) : List (String × String) :=
  if input.empty then [] else [(input.param, input.type)]

/-- The ambiguity-tolerant membership lookup as the spec words it: exact
match, then for a bare reference the primary-namespace-qualified,
any-other-namespace-qualified and bare-qualified candidates, then suffix
matching on the tail components of the entries. -/
def memberLookup (entries : List String) (primary : String) (pkgs : List String)
    (q : String) : Bool :=
  entries.contains q ||
    ((0 < q.data.length && !startsWithDot q) &&
      ((primary != "" && entries.contains ("." ++ primary ++ "." ++ q)) ||
       pkgs.any (fun p => p != "" && p != primary && entries.contains ("." ++ p ++ "." ++ q)) ||
       entries.contains ("." ++ q) ||
       entries.any (fun e => strEndsWith e ("." ++ q))))

/-- The name resolution candidate order as the spec words it: the
reference as-is when it resolves in the registry, then the
primary-namespace-qualified form, then the form qualified under every
other known namespace, then the bare-qualified form; the first candidate
present wins and otherwise the reference is returned unchanged. -/
def resolveTypeNameSpec (env : Env) (r : String) : String :=
  if hasType env r then r
  else if env.packageName != "" && hasType env ("." ++ env.packageName ++ "." ++ r) then
    "." ++ env.packageName ++ "." ++ r
  else
    match env.packageNames.find?
        (fun p => p != "" && p != env.packageName && hasType env ("." ++ p ++ "." ++ r)) with
    | some p => "." ++ p ++ "." ++ r
    | none =>
      if hasType env ("." ++ r) then "." ++ r else r

/-- The same spec-side candidate order against the enum registry. -/
def resolveEnumNameSpec (env : Env) (r : String) : String :=
  if hasEnum env r then r
  else if env.packageName != "" && hasEnum env ("." ++ env.packageName ++ "." ++ r) then
    "." ++ env.packageName ++ "." ++ r
  else
    match env.packageNames.find?
        (fun p => p != "" && p != env.packageName && hasEnum env ("." ++ p ++ "." ++ r)) with
    | some p => "." ++ p ++ "." ++ r
    | none =>
      if hasEnum env ("." ++ r) then "." ++ r else r

/-! Basic frame lemmas about the marking core: the reachable and enum
sets only grow, the in-progress set is restored exactly, and every name
added to the reachable set is a registry key. -/

/-- Frame relation between the entry and exit state of one marking call. -/
def Frame (env : Env) (s t : MarkState) : Prop :=
  (∀ x, x ∈ s.reach → x ∈ t.reach) ∧
  t.inProg = s.inProg ∧
  (∀ e, e ∈ s.enums → e ∈ t.enums) ∧
  (∀ x, x ∈ t.reach → x ∈ s.reach ∨ hasType env x = true)

theorem Frame.refl (env : Env) (s : MarkState) : Frame env s s :=
  ⟨fun _ h => h, rfl, fun _ h => h, fun _ h => Or.inl h⟩

theorem Frame.trans {env : Env} {s t u : MarkState} (h1 : Frame env s t)
    (h2 : Frame env t u) : Frame env s u :=
  ⟨fun x hx => h2.1 x (h1.1 x hx), h2.2.1.trans h1.2.1,
   fun e he => h2.2.2.1 e (h1.2.2.1 e he),
   fun x hx => (h2.2.2.2 x hx).elim (fun h => h1.2.2.2 x h) Or.inr⟩

/-- Chaining a relation through an option-valued fold. -/
theorem foldlM_rel {α β : Type _} (R : β → β → Prop) (hrefl : ∀ b, R b b)
    (htrans : ∀ a b c, R a b → R b c → R a c)
    (g : β → α → Option β) :
    ∀ (l : List α), (∀ t a t', a ∈ l → g t a = some t' → R t t') →
      ∀ t t', List.foldlM g t l = some t' → R t t' := by
  intro l
  induction l with
  | nil =>
    intro _ t t' h
    simp only [List.foldlM_nil, Option.pure_def, Option.some.injEq] at h
    exact h ▸ hrefl t
  | cons a l ih =>
    intro hg t t' h
    rw [List.foldlM_cons] at h
    obtain ⟨u, hu, hrest⟩ := Option.bind_eq_some.mp h
    exact htrans _ _ _ (hg t a u (List.mem_cons_self a l) hu)
      (ih (fun t a t' ha => hg t a t' (List.mem_cons_of_mem _ ha)) u t' hrest)

/-- Membership survives the enum-registration fold. -/
theorem mem_foldl_cons {α : Type _} (f : α → String) :
    ∀ (l : List α) (init : List String) (x : String), x ∈ init →
      x ∈ l.foldl (fun es e => f e :: es) init := by
  intro l
  induction l with
  | nil => intro _ _ h; exact h
  | cons a l ih =>
    intro init x hx
    exact ih (f a :: init) x (List.mem_cons_of_mem _ hx)


/-- One marking call only grows the reachable and enum sets, restores the
in-progress list exactly, and only adds registry keys to the reachable
set. -/
theorem markCore_frame (env : Env) :
    ∀ (fuel : Nat) (s : MarkState) (n : String) (t : MarkState),
      markCore env fuel s n = some t → Frame env s t := by
  intro fuel
  induction fuel with
  | zero => intro s n t h; simp [markCore] at h
  | succ fuel ih =>
    intro s n t h
    simp only [markCore] at h
    split at h
    · injection h with h
      exact h ▸ Frame.refl env s
    · rename_i hguard
      split at h
      · injection h with h
        exact h ▸ Frame.refl env s
      · rename_i descriptor hlk
        split at h
        · exact Option.noConfusion h
        · rename_i s2 hf1
          split at h
          · exact Option.noConfusion h
          · rename_i s4 hf2
            injection h with h
            subst h
            set r := ResolveTypeName env n with hr
            have fr1 : Frame env ⟨r :: s.reach, r :: s.inProg, s.enums⟩ s2 :=
              foldlM_rel (Frame env) (Frame.refl env)
                (fun _ _ _ h1 h2 => Frame.trans h1 h2) _ descriptor.nested
                (fun t a t' _ hc => ih t _ t' hc) _ s2 hf1
            have hg2 : ∀ (t : MarkState) (a : FieldD) (t' : MarkState), a ∈ descriptor.fields →
                (fun (t : MarkState) (f : FieldD) =>
                  match f.kind with
                  | FieldKind.message => markCore env fuel t f.typeName
                  | FieldKind.enum =>
                    some { t with enums := ResolveEnumName env f.typeName :: t.enums }
                  | FieldKind.scalar => some t) t a = some t' → Frame env t t' := by
              intro t a t' _ hc
              cases hk : a.kind
              · simp only [hk, Option.some.injEq] at hc
                exact hc ▸ Frame.refl env t
              · simp only [hk] at hc
                exact ih t _ t' hc
              · simp only [hk, Option.some.injEq] at hc
                refine hc ▸ ⟨fun x hx => hx, rfl, fun e he => List.mem_cons_of_mem _ he,
                  fun x hx => Or.inl hx⟩
            have fr2 : Frame env s2
                ⟨s2.reach, s2.inProg,
                  descriptor.enums.foldl (fun es e => (r ++ "." ++ e.name) :: es) s2.enums⟩ :=
              ⟨fun x hx => hx, rfl,
               fun e he => mem_foldl_cons (fun e => r ++ "." ++ e.name) descriptor.enums s2.enums e he,
               fun x hx => Or.inl hx⟩
            have fr3 := foldlM_rel (Frame env) (Frame.refl env)
              (fun _ _ _ h1 h2 => Frame.trans h1 h2) _ descriptor.fields hg2 _ s4 hf2
            have frp := (fr1.trans fr2).trans fr3
            refine ⟨?_, ?_, ?_, ?_⟩
            · intro x hx
              exact frp.1 x (List.mem_cons_of_mem r hx)
            · show s4.inProg.erase r = s.inProg
              have h4 : s4.inProg = r :: s.inProg := frp.2.1
              rw [h4, List.erase_cons_head]
            · intro e he
              exact frp.2.2.1 e he
            · intro x hx
              rcases frp.2.2.2 x hx with hx1 | hty
              · rcases List.mem_cons.mp hx1 with rfl | hxs
                · right; simp [hasType, hlk]
                · left; exact hxs
              · right; exact hty


/-- Dichotomy of one marking call: either the resolved name ends up in
the reachable set, or the call was a no-op (guard hit or unknown type). -/
theorem markCore_cases (env : Env) {fuel : Nat} {s : MarkState} {n : String} {t : MarkState}
    (h : markCore env fuel s n = some t) :
    ResolveTypeName env n ∈ t.reach ∨
      (t = s ∧ (s.reach.contains (ResolveTypeName env n) ||
        s.inProg.contains (ResolveTypeName env n)) = true) ∨
      (t = s ∧ lookupType env (ResolveTypeName env n) = none) := by
  match fuel with
  | 0 => simp [markCore] at h
  | fuel + 1 =>
    have hfr := markCore_frame env (fuel + 1) s n t h
    simp only [markCore] at h
    split at h
    · rename_i hguard
      injection h with h
      exact Or.inr (Or.inl ⟨h.symm, hguard⟩)
    · rename_i hguard
      split at h
      · rename_i hlk
        injection h with h
        exact Or.inr (Or.inr ⟨h.symm, hlk⟩)
      · rename_i descriptor hlk
        split at h
        · exact Option.noConfusion h
        · rename_i s2 hf1
          split at h
          · exact Option.noConfusion h
          · rename_i s4 hf2
            injection h with h
            subst h
            left
            have fr1 := foldlM_rel (Frame env) (Frame.refl env)
              (fun _ _ _ h1 h2 => Frame.trans h1 h2) _ descriptor.nested
              (fun t a t' _ hc => markCore_frame env fuel t _ t' hc) _ s2 hf1
            have hg2 : ∀ (t : MarkState) (a : FieldD) (t' : MarkState), a ∈ descriptor.fields →
                (fun (t : MarkState) (f : FieldD) =>
                  match f.kind with
                  | FieldKind.message => markCore env fuel t f.typeName
                  | FieldKind.enum =>
                    some { t with enums := ResolveEnumName env f.typeName :: t.enums }
                  | FieldKind.scalar => some t) t a = some t' → Frame env t t' := by
              intro t a t' _ hc
              cases hk : a.kind
              · simp only [hk, Option.some.injEq] at hc
                exact hc ▸ Frame.refl env t
              · simp only [hk] at hc
                exact markCore_frame env fuel t _ t' hc
              · simp only [hk, Option.some.injEq] at hc
                refine hc ▸ ⟨fun x hx => hx, rfl, fun e he => List.mem_cons_of_mem _ he,
                  fun x hx => Or.inl hx⟩
            have fr3 := foldlM_rel (Frame env) (Frame.refl env)
              (fun _ _ _ h1 h2 => Frame.trans h1 h2) _ descriptor.fields hg2 _ s4 hf2
            show ResolveTypeName env n ∈ s4.reach
            exact fr3.1 _ (fr1.1 _ (List.mem_cons_self _ _))

/-- Marking a second time from a state produced by a first marking of the
same name returns that state unchanged. -/
theorem markCore_idem (env : Env) {fuel : Nat} {s : MarkState} {n : String} {t : MarkState}
    (h : markCore env fuel s n = some t) (fuel2 : Nat) :
    markCore env (fuel2 + 1) t n = some t := by
  rcases markCore_cases env h with hmem | ⟨rfl, hguard⟩ | ⟨rfl, hlk⟩
  · simp only [markCore]
    have hc : (t.reach.contains (ResolveTypeName env n) ||
        t.inProg.contains (ResolveTypeName env n)) = true := by
      simp [hmem]
    rw [if_pos hc]
  · simp only [markCore]
    rw [if_pos hguard]
  · simp only [markCore]
    split
    · rfl
    · rw [hlk]

/-- Marking a name whose resolved form is not registered is a no-op. -/
theorem markCore_noop (env : Env) (fuel : Nat) (s : MarkState) (n : String)
    (h : hasType env (ResolveTypeName env n) = false) :
    markCore env (fuel + 1) s n = some s := by
  simp only [markCore]
  split
  · rfl
  · have hlk : lookupType env (ResolveTypeName env n) = none := by
      simpa [hasType, Option.isSome_iff_exists] using h
    rw [hlk]


/-- The set of registered type names. -/
def registryKeys (env : Env) : Finset String :=
  (env.typeRegistry.map Prod.fst).toFinset

/-- Number of registered type names not yet in a reachable set: the
termination measure of the marking recursion. -/
def unreached (env : Env) (reach : List String) : Nat :=
  (registryKeys env \ reach.toFinset).card

theorem mem_registryKeys_of_hasType {env : Env} {r : String} (h : hasType env r = true) :
    r ∈ registryKeys env := by
  simp only [hasType, lookupType] at h
  cases hfind : List.find? (fun p => p.1 == r) env.typeRegistry with
  | none => rw [hfind] at h; simp at h
  | some p =>
    have hmem := List.mem_of_find?_eq_some hfind
    have hbeq := List.find?_some hfind
    have hpr : p.1 = r := by simpa using hbeq
    simp only [registryKeys, List.mem_toFinset, List.mem_map]
    exact ⟨p, hmem, hpr⟩

theorem unreached_le {env : Env} {l1 l2 : List String} (h : ∀ x ∈ l1, x ∈ l2) :
    unreached env l2 ≤ unreached env l1 := by
  apply Finset.card_le_card
  apply Finset.sdiff_subset_sdiff (le_refl _)
  intro x hx
  simp only [List.mem_toFinset] at hx ⊢
  exact h x hx

theorem unreached_lt {env : Env} {r : String} {reach : List String}
    (hr : hasType env r = true) (hnot : r ∉ reach) :
    unreached env (r :: reach) < unreached env reach := by
  apply Finset.card_lt_card
  rw [Finset.ssubset_iff_of_subset]
  · refine ⟨r, ?_, ?_⟩
    · simp [Finset.mem_sdiff, mem_registryKeys_of_hasType hr, hnot]
    · simp
  · apply Finset.sdiff_subset_sdiff (le_refl _)
    intro x hx
    simp only [List.toFinset_cons, Finset.mem_insert, List.mem_toFinset] at hx ⊢
    exact Or.inr hx

/-- Threading a success invariant through an option-valued fold. -/
theorem foldlM_total {α β : Type _} (P : β → Prop) (g : β → α → Option β) :
    ∀ (l : List α), (∀ t a, a ∈ l → P t → ∃ t', g t a = some t' ∧ P t') →
      ∀ t, P t → ∃ t', List.foldlM g t l = some t' ∧ P t' := by
  intro l
  induction l with
  | nil =>
    intro _ t ht
    exact ⟨t, by simp [List.foldlM_nil], ht⟩
  | cons a l ih =>
    intro hg t ht
    obtain ⟨u, hu, hPu⟩ := hg t a (List.mem_cons_self a l) ht
    obtain ⟨t', ht', hPt'⟩ := ih (fun t a ha => hg t a (List.mem_cons_of_mem _ ha)) u hPu
    refine ⟨t', ?_, hPt'⟩
    rw [List.foldlM_cons, hu]
    exact ht'

/-- Fuel larger than the number of unreached registered names suffices:
the marking recursion terminates, each recursive call strictly shrinking
the set of registered names outside the reachable set. -/
theorem markCore_total (env : Env) :
    ∀ (fuel : Nat) (s : MarkState) (n : String), unreached env s.reach < fuel →
      ∃ t, markCore env fuel s n = some t := by
  intro fuel
  induction fuel with
  | zero => intro s n h; exact absurd h (Nat.not_lt_zero _)
  | succ fuel ih =>
    intro s n hlt
    simp only [markCore]
    split
    · exact ⟨s, rfl⟩
    · rename_i hguard
      split
      · exact ⟨s, rfl⟩
      · rename_i descriptor hlk
        -- the resolved name is registered and was not reachable
        have hty : hasType env (ResolveTypeName env n) = true := by
          simp [hasType, hlk]
        have hnot : ResolveTypeName env n ∉ s.reach := by
          intro hmem
          apply hguard
          simp [hmem]
        have hs1 : unreached env (ResolveTypeName env n :: s.reach) < fuel := by
          have h1 := unreached_lt hty hnot
          omega
        set s1 : MarkState :=
          { s with inProg := ResolveTypeName env n :: s.inProg,
                   reach := ResolveTypeName env n :: s.reach } with hs1def
        have hP1 : ∀ x ∈ s1.reach, x ∈ s1.reach := fun x hx => hx
        have hstep1 : ∀ (t : MarkState) (a : MsgD), a ∈ descriptor.nested →
            (∀ x ∈ s1.reach, x ∈ t.reach) →
            ∃ t', markCore env fuel t (ResolveTypeName env n ++ "." ++ a.name) = some t' ∧
              (∀ x ∈ s1.reach, x ∈ t'.reach) := by
          intro t a _ hPt
          have : unreached env t.reach < fuel :=
            lt_of_le_of_lt (unreached_le hPt) hs1
          obtain ⟨t', ht'⟩ := ih t _ this
          exact ⟨t', ht', fun x hx =>
            (markCore_frame env fuel t _ t' ht').1 x (hPt x hx)⟩
        obtain ⟨s2, hs2, hP2⟩ :=
          foldlM_total (fun t => ∀ x ∈ s1.reach, x ∈ t.reach) _ descriptor.nested hstep1 s1 hP1
        rw [hs2]
        dsimp only
        have hstep2 : ∀ (t : MarkState) (a : FieldD), a ∈ descriptor.fields →
            (∀ x ∈ s1.reach, x ∈ t.reach) →
            ∃ t', (fun (t : MarkState) (f : FieldD) =>
                match f.kind with
                | FieldKind.message => markCore env fuel t f.typeName
                | FieldKind.enum =>
                  some { t with enums := ResolveEnumName env f.typeName :: t.enums }
                | FieldKind.scalar => some t) t a = some t' ∧
              (∀ x ∈ s1.reach, x ∈ t'.reach) := by
          intro t a _ hPt
          cases hk : a.kind
          · refine ⟨t, ?_, hPt⟩
            simp [hk]
          · have hlt2 : unreached env t.reach < fuel :=
              lt_of_le_of_lt (unreached_le hPt) hs1
            obtain ⟨t', ht'⟩ := ih t a.typeName hlt2
            refine ⟨t', ?_, fun x hx =>
              (markCore_frame env fuel t _ t' ht').1 x (hPt x hx)⟩
            simp [hk, ht']
          · refine ⟨{ t with enums := ResolveEnumName env a.typeName :: t.enums }, ?_, hPt⟩
            simp [hk]
        generalize descriptor.enums.foldl
            (fun es e => (ResolveTypeName env n ++ "." ++ e.name) :: es) s2.enums = E
        obtain ⟨s4, hs4, _⟩ :=
          foldlM_total (fun t : MarkState => ∀ x ∈ s1.reach, x ∈ t.reach) _ descriptor.fields
            hstep2 (⟨s2.reach, s2.inProg, E⟩ : MarkState) hP2
        rw [hs4]
        exact ⟨_, rfl⟩


/-- Test fixture: the three-message separation scenario (package test,
messages InputMessage, OutputMessage, SharedMessage). -/
def sepFile : FileD :=
  { package := "test",
    messages :=
      [ MsgD.mk "InputMessage" [] [] [],
        MsgD.mk "OutputMessage" [] [] [],
        MsgD.mk "SharedMessage" [] [] [] ],
    enums := [], services := [] }

/-- The separation scenario after the four marking calls of the test. -/
def sepTA : Option Analyzer :=
  (MarkTypeReachableAsInput 2 (NewTypeAnalyzer [sepFile]) ".test.InputMessage").bind fun ta =>
  (MarkTypeReachableAsOutput 2 ta ".test.OutputMessage").bind fun ta =>
  (MarkTypeReachableAsInput 2 ta ".test.SharedMessage").bind fun ta =>
  MarkTypeReachableAsOutput 2 ta ".test.SharedMessage"

/-- Test fixture: two messages referencing each other through message
fields (a type cycle). -/
def cyclicFile : FileD :=
  { package := "test",
    messages :=
      [ MsgD.mk "A" [⟨"b", FieldKind.message, ".test.B"⟩] [] [],
        MsgD.mk "B" [⟨"a", FieldKind.message, ".test.A"⟩] [] [] ],
    enums := [], services := [] }

/-- C1: input-context marking never touches the output-reachable or
output-in-progress set and conversely; in the concrete separation
scenario the type marked only as input is input-reachable and not
output-reachable, symmetrically for output, and the type marked in both
contexts is reachable in both, including under bare short-name
queries. -/
theorem dual_context_independence :
    (∀ (fuel : Nat) (ta : Analyzer) (n : String) (ta' : Analyzer),
        MarkTypeReachableAsInput fuel ta n = some ta' →
          ta'.outputReachableTypes = ta.outputReachableTypes ∧
          ta'.inProgressOutput = ta.inProgressOutput ∧ ta'.env = ta.env) ∧
    (∀ (fuel : Nat) (ta : Analyzer) (n : String) (ta' : Analyzer),
        MarkTypeReachableAsOutput fuel ta n = some ta' →
          ta'.inputReachableTypes = ta.inputReachableTypes ∧
          ta'.inProgressInput = ta.inProgressInput ∧ ta'.env = ta.env) ∧
    sepTA.map (fun ta =>
      IsInputReachable ta ".test.InputMessage" && !IsOutputReachable ta ".test.InputMessage" &&
      IsOutputReachable ta ".test.OutputMessage" && !IsInputReachable ta ".test.OutputMessage" &&
      IsInputReachable ta ".test.SharedMessage" && IsOutputReachable ta ".test.SharedMessage" &&
      IsInputReachable ta "InputMessage" && !IsOutputReachable ta "InputMessage" &&
      IsInputReachable ta "SharedMessage" && IsOutputReachable ta "SharedMessage") = some true := by
  refine ⟨?_, ?_, by decide⟩
  · intro fuel ta n ta' h
    simp only [MarkTypeReachableAsInput, Option.map_eq_some'] at h
    obtain ⟨s, _, rfl⟩ := h
    exact ⟨rfl, rfl, rfl⟩
  · intro fuel ta n ta' h
    simp only [MarkTypeReachableAsOutput, Option.map_eq_some'] at h
    obtain ⟨s, _, rfl⟩ := h
    exact ⟨rfl, rfl, rfl⟩

/-- Witness for C1 at a concrete input discharging the hypotheses of the
two quantified conjuncts. -/
theorem dual_context_independence_witness :
    (MarkTypeReachableAsInput 1 (NewTypeAnalyzer []) "X" = some (NewTypeAnalyzer []) ∧
      (NewTypeAnalyzer []).outputReachableTypes = (NewTypeAnalyzer []).outputReachableTypes) ∧
    (MarkTypeReachableAsOutput 1 (NewTypeAnalyzer []) "X" = some (NewTypeAnalyzer []) ∧
      (NewTypeAnalyzer []).inputReachableTypes = (NewTypeAnalyzer []).inputReachableTypes) :=
  ⟨⟨rfl, (dual_context_independence.1 1 (NewTypeAnalyzer []) "X" (NewTypeAnalyzer [])
      rfl).1⟩,
   ⟨rfl, (dual_context_independence.2.1 1 (NewTypeAnalyzer []) "X" (NewTypeAnalyzer [])
      rfl).1⟩⟩

/-- C2: with fuel one more than the number of registered names outside
the current reachable set, both context markings return a state (the
traversal terminates, every registered name entering the reachable set
at most once); on the concrete two-message cycle, seeding at A reaches
both A and B in the seeding context. -/
theorem marking_terminates :
    (∀ (ta : Analyzer) (n : String), ∃ ta',
        MarkTypeReachableAsInput (unreached ta.env ta.inputReachableTypes + 1) ta n = some ta') ∧
    (∀ (ta : Analyzer) (n : String), ∃ ta',
        MarkTypeReachableAsOutput (unreached ta.env ta.outputReachableTypes + 1) ta n = some ta') ∧
    (MarkTypeReachableAsInput 3 (NewTypeAnalyzer [cyclicFile]) ".test.A").map
      (fun ta => ta.inputReachableTypes.contains ".test.A" &&
                 ta.inputReachableTypes.contains ".test.B") = some true ∧
    (MarkTypeReachableAsOutput 3 (NewTypeAnalyzer [cyclicFile]) ".test.A").map
      (fun ta => ta.outputReachableTypes.contains ".test.A" &&
                 ta.outputReachableTypes.contains ".test.B") = some true := by
  refine ⟨?_, ?_, by decide, by decide⟩
  · intro ta n
    obtain ⟨t, ht⟩ := markCore_total ta.env (unreached ta.env ta.inputReachableTypes + 1)
      ta.inputState n (Nat.lt_succ_self _)
    exact ⟨_, Option.map_eq_some'.mpr ⟨t, ht, rfl⟩⟩
  · intro ta n
    obtain ⟨t, ht⟩ := markCore_total ta.env (unreached ta.env ta.outputReachableTypes + 1)
      ta.outputState n (Nat.lt_succ_self _)
    exact ⟨_, Option.map_eq_some'.mpr ⟨t, ht, rfl⟩⟩

/-- C9: when the resolved form of a name is not registered, marking in
either dual context and in the single-set variant returns the analyzer
completely unchanged. -/
theorem unknown_type_marking_noop :
    (∀ (fuel : Nat) (ta : Analyzer) (n : String),
        hasType ta.env (ResolveTypeName ta.env n) = false →
          MarkTypeReachableAsInput (fuel + 1) ta n = some ta ∧
          MarkTypeReachableAsOutput (fuel + 1) ta n = some ta) ∧
    (∀ (fuel : Nat) (ta : AnalyzerS) (n : String),
        hasType ta.env (ResolveTypeName ta.env n) = false →
          MarkTypeReachable (fuel + 1) ta n = some ta) := by
  constructor
  · intro fuel ta n h
    exact ⟨Option.map_eq_some'.mpr ⟨ta.inputState, markCore_noop ta.env fuel ta.inputState n h, rfl⟩,
           Option.map_eq_some'.mpr ⟨ta.outputState, markCore_noop ta.env fuel ta.outputState n h, rfl⟩⟩
  · intro fuel ta n h
    exact Option.map_eq_some'.mpr ⟨ta.state, markCore_noop ta.env fuel ta.state n h, rfl⟩

/-- Witness for C9 at a concrete unregistered name. -/
theorem unknown_type_marking_noop_witness :
    hasType (NewTypeAnalyzer []).env (ResolveTypeName (NewTypeAnalyzer []).env "Nope") = false ∧
    MarkTypeReachableAsInput 1 (NewTypeAnalyzer []) "Nope" = some (NewTypeAnalyzer []) ∧
    MarkTypeReachable 1 (NewTypeAnalyzerS []) "Nope" = some (NewTypeAnalyzerS []) :=
  ⟨by decide,
   (unknown_type_marking_noop.1 0 (NewTypeAnalyzer []) "Nope" (by decide)).1,
   unknown_type_marking_noop.2 0 (NewTypeAnalyzerS []) "Nope" (by decide)⟩

/-- C10: marking the same name a second time, in either dual context or
in the single-set variant, returns the state of the first marking
unchanged, so all three membership sets are those of a single call. -/
theorem marking_idempotent :
    (∀ (fuel fuel2 : Nat) (ta ta' : Analyzer) (n : String),
        MarkTypeReachableAsInput fuel ta n = some ta' →
          MarkTypeReachableAsInput (fuel2 + 1) ta' n = some ta') ∧
    (∀ (fuel fuel2 : Nat) (ta ta' : Analyzer) (n : String),
        MarkTypeReachableAsOutput fuel ta n = some ta' →
          MarkTypeReachableAsOutput (fuel2 + 1) ta' n = some ta') ∧
    (∀ (fuel fuel2 : Nat) (ta ta' : AnalyzerS) (n : String),
        MarkTypeReachable fuel ta n = some ta' →
          MarkTypeReachable (fuel2 + 1) ta' n = some ta') := by
  refine ⟨?_, ?_, ?_⟩
  · intro fuel fuel2 ta ta' n h
    simp only [MarkTypeReachableAsInput, Option.map_eq_some'] at h
    obtain ⟨s, hs, hfact⟩ := h
    subst hfact
    exact Option.map_eq_some'.mpr ⟨s, markCore_idem ta.env hs fuel2, rfl⟩
  · intro fuel fuel2 ta ta' n h
    simp only [MarkTypeReachableAsOutput, Option.map_eq_some'] at h
    obtain ⟨s, hs, hfact⟩ := h
    subst hfact
    exact Option.map_eq_some'.mpr ⟨s, markCore_idem ta.env hs fuel2, rfl⟩
  · intro fuel fuel2 ta ta' n h
    simp only [MarkTypeReachable, Option.map_eq_some'] at h
    obtain ⟨s, hs, hfact⟩ := h
    subst hfact
    exact Option.map_eq_some'.mpr ⟨s, markCore_idem ta.env hs fuel2, rfl⟩

/-- Witness for C10 at a concrete first marking. -/
theorem marking_idempotent_witness :
    MarkTypeReachableAsInput 1 (NewTypeAnalyzer []) "X" = some (NewTypeAnalyzer []) ∧
    MarkTypeReachableAsInput 1 (NewTypeAnalyzer []) "X" = some (NewTypeAnalyzer []) :=
  ⟨rfl,
   marking_idempotent.1 1 0 (NewTypeAnalyzer []) (NewTypeAnalyzer []) "X" rfl⟩


/-- C5: both endpoint filters implement the same policy: admitted iff not
skipped and (the audience target is a wildcard, or the method target is a
wildcard, or the two targets are equal as strings); the projector-side
skipMethod is the exact negation; and an endpoint with the empty-string
target is admitted exactly under a wildcard or an explicitly empty
audience target. -/
theorem endpoint_filter_policy :
    (∀ (t : String) (o : MethodOptions),
        shouldIncludeMethod t o =
          (!o.skip && (t == "all" || t == "*" || o.target == "all" || o.target == "*" ||
            t == o.target))) ∧
    (∀ (t : String) (o : MethodOptions), skipMethod t o = !shouldIncludeMethod t o) ∧
    (∀ (t : String) (o : MethodOptions), o.target = "" →
        (shouldIncludeMethod t o = true ↔
          o.skip = false ∧ (t = "all" ∨ t = "*" ∨ t = ""))) := by
  have h1 : ∀ (t : String) (o : MethodOptions),
      shouldIncludeMethod t o =
        (!o.skip && (t == "all" || t == "*" || o.target == "all" || o.target == "*" ||
          t == o.target)) := by
    intro t o
    unfold shouldIncludeMethod
    cases o.skip <;> cases h1 : t == "all" <;> cases h2 : t == "*" <;>
      cases h3 : o.target == "all" <;> cases h4 : o.target == "*" <;>
      simp [h1, h2, h3, h4]
  refine ⟨h1, ?_, ?_⟩
  · intro t o
    rw [h1]
    unfold skipMethod checkCompilerTarget
    cases o.skip <;> cases h2 : t == "all" <;> cases h3 : t == "*" <;>
      cases h4 : o.target == "all" <;> cases h5 : o.target == "*" <;>
      cases h6 : t == o.target <;> simp [h2, h3, h4, h5, h6]
  · intro t o htgt
    rw [h1, htgt]
    cases o.skip <;> simp <;> tauto

/-- Witness for C5 discharging the empty-target hypothesis at a concrete
options record. -/
theorem endpoint_filter_policy_witness :
    defaultMethodOptions.target = "" ∧
    (shouldIncludeMethod "" defaultMethodOptions = true ↔
      defaultMethodOptions.skip = false ∧ ("" = "all" ∨ "" = "*" ∨ "" = "")) :=
  ⟨rfl, endpoint_filter_policy.2.2 "" defaultMethodOptions rfl⟩

/-- Pointwise equal predicates find the same first element. -/
theorem find?_congr_mem {α : Type _} (l : List α) (p q : α → Bool)
    (h : ∀ a ∈ l, p a = q a) : l.find? p = l.find? q := by
  induction l with
  | nil => rfl
  | cons a l ih =>
    have ha := h a (List.mem_cons_self a l)
    simp only [List.find?]
    rw [ha]
    cases hq : q a
    · exact ih (fun a ha' => h a (List.mem_cons_of_mem _ ha'))
    · rfl

/-- A registered type name is among the registry keys. -/
theorem mem_keys_of_hasType {env : Env} {r : String} (h : hasType env r = true) :
    r ∈ env.typeRegistry.map Prod.fst := by
  have := mem_registryKeys_of_hasType h
  simpa [registryKeys] using this

/-- A registered enum name is among the enum registry keys. -/
theorem mem_keys_of_hasEnum {env : Env} {r : String} (h : hasEnum env r = true) :
    r ∈ env.enumRegistry.map Prod.fst := by
  simp only [hasEnum, lookupEnum] at h
  cases hfind : List.find? (fun p => p.1 == r) env.enumRegistry with
  | none => rw [hfind] at h; simp at h
  | some p =>
    have hmem := List.mem_of_find?_eq_some hfind
    have hbeq := List.find?_some hfind
    have hpr : p.1 = r := by simpa using hbeq
    simp only [List.mem_map]
    exact ⟨p, hmem, hpr⟩


/-- C6: under the invariant that every registered key carries a leading
separator (true of every registry the constructors build), the
implemented resolvers realize exactly the candidate order of the spec:
the reference as-is when registered, then primary-qualified, then
qualified under every other known namespace, then bare-qualified, and
otherwise the reference unchanged. -/
theorem name_resolver_order :
    (∀ (env : Env) (r : String),
        (∀ k ∈ env.typeRegistry.map Prod.fst, startsWithDot k = true) →
        ResolveTypeName env r = resolveTypeNameSpec env r) ∧
    (∀ (env : Env) (r : String),
        (∀ k ∈ env.enumRegistry.map Prod.fst, startsWithDot k = true) →
        ResolveEnumName env r = resolveEnumNameSpec env r) := by
  constructor
  · intro env r hkeys
    by_cases hr : hasType env r = true
    · have hdot : startsWithDot r = true := hkeys r (mem_keys_of_hasType hr)
      simp [ResolveTypeName, resolveTypeNameSpec, hr, hdot]
    · have hr' : hasType env r = false := by simpa using hr
      by_cases hprim : (env.packageName != "" &&
          hasType env ("." ++ env.packageName ++ "." ++ r)) = true
      · simp [ResolveTypeName, resolveTypeNameSpec, hr', hprim]
      · have hprim' : (env.packageName != "" &&
            hasType env ("." ++ env.packageName ++ "." ++ r)) = false := by
          simpa using hprim
        have hpred : ∀ p ∈ env.packageNames,
            (p != "" && hasType env ("." ++ p ++ "." ++ r)) =
            (p != "" && p != env.packageName && hasType env ("." ++ p ++ "." ++ r)) := by
          intro p _
          by_cases hpp : p = env.packageName
          · cases hpe : (p != "")
            · simp [hpe]
            · have hpe2 : (env.packageName != "") = true := by rw [← hpp]; exact hpe
              have hno : hasType env ("." ++ p ++ "." ++ r) = false := by
                rw [hpe2] at hprim'
                rw [hpp]
                simpa using hprim'
              have hself : (p != env.packageName) = false := by simp [hpp]
              simp [hpe, hno, hself]
          · have hne : (p != env.packageName) = true := by
              simpa using hpp
            simp [hne, Bool.and_assoc]
        have hfind :
            env.packageNames.find? (fun p => p != "" && hasType env ("." ++ p ++ "." ++ r)) =
            env.packageNames.find? (fun p => p != "" && p != env.packageName &&
              hasType env ("." ++ p ++ "." ++ r)) :=
          find?_congr_mem _ _ _ hpred
        simp [ResolveTypeName, resolveTypeNameSpec, hr', hprim', hfind]
  · intro env r hkeys
    by_cases hr : hasEnum env r = true
    · have hdot : startsWithDot r = true := hkeys r (mem_keys_of_hasEnum hr)
      simp [ResolveEnumName, resolveEnumNameSpec, hr, hdot]
    · have hr' : hasEnum env r = false := by simpa using hr
      by_cases hprim : (env.packageName != "" &&
          hasEnum env ("." ++ env.packageName ++ "." ++ r)) = true
      · simp [ResolveEnumName, resolveEnumNameSpec, hr', hprim]
      · have hprim' : (env.packageName != "" &&
            hasEnum env ("." ++ env.packageName ++ "." ++ r)) = false := by
          simpa using hprim
        have hpred : ∀ p ∈ env.packageNames,
            (p != "" && hasEnum env ("." ++ p ++ "." ++ r)) =
            (p != "" && p != env.packageName && hasEnum env ("." ++ p ++ "." ++ r)) := by
          intro p _
          by_cases hpp : p = env.packageName
          · cases hpe : (p != "")
            · simp [hpe]
            · have hpe2 : (env.packageName != "") = true := by rw [← hpp]; exact hpe
              have hno : hasEnum env ("." ++ p ++ "." ++ r) = false := by
                rw [hpe2] at hprim'
                rw [hpp]
                simpa using hprim'
              have hself : (p != env.packageName) = false := by simp [hpp]
              simp [hpe, hno, hself]
          · have hne : (p != env.packageName) = true := by
              simpa using hpp
            simp [hne, Bool.and_assoc]
        have hfind :
            env.packageNames.find? (fun p => p != "" && hasEnum env ("." ++ p ++ "." ++ r)) =
            env.packageNames.find? (fun p => p != "" && p != env.packageName &&
              hasEnum env ("." ++ p ++ "." ++ r)) :=
          find?_congr_mem _ _ _ hpred
        simp [ResolveEnumName, resolveEnumNameSpec, hr', hprim', hfind]

/-- Witness for C6 at a concrete registry whose keys all carry the
leading separator. -/
theorem name_resolver_order_witness :
    (∀ k ∈ (buildEnv [sepFile]).typeRegistry.map Prod.fst, startsWithDot k = true) ∧
    ResolveTypeName (buildEnv [sepFile]) "InputMessage" =
      resolveTypeNameSpec (buildEnv [sepFile]) "InputMessage" ∧
    (∀ k ∈ (buildEnv [sepFile]).enumRegistry.map Prod.fst, startsWithDot k = true) ∧
    ResolveEnumName (buildEnv [sepFile]) "Status" =
      resolveEnumNameSpec (buildEnv [sepFile]) "Status" :=
  ⟨by decide, name_resolver_order.1 (buildEnv [sepFile]) "InputMessage" (by decide),
   by decide, name_resolver_order.2 (buildEnv [sepFile]) "Status" (by decide)⟩


/-- Early-return chain of one membership query as one Boolean identity. -/
theorem ifchain_eq (a g c d e f : Bool) :
    (if a = true then true
     else if g = true then
       (if c = true then true else if d = true then true else if e = true then true else f)
     else false) = (a || (g && (c || d || e || f))) := by
  cases a <;> cases g <;> cases c <;> cases d <;> cases e <;> cases f <;> rfl

/-- Early-return chain of the either-context query against the split
per-set lookups. -/
theorem ifchain_eq_two (a1 a2 g p c1 c2 d1 d2 e1 e2 f1 f2 : Bool) :
    (if (a1 || a2) = true then true
     else if g = true then
       (if (p && (c1 || c2)) = true then true
        else if (d1 || d2) = true then true
        else if (e1 || e2) = true then true
        else (f1 || f2))
     else false) =
    ((a1 || (g && ((p && c1) || d1 || e1 || f1))) ||
     (a2 || (g && ((p && c2) || d2 || e2 || f2)))) := by
  revert a1 a2 g p c1 c2 d1 d2 e1 e2 f1 f2
  decide

/-- The package loop of the either-context query splits into the two
per-set loops. -/
theorem any_and_or {α : Type _} (l : List α) (c p q : α → Bool) :
    l.any (fun x => c x && (p x || q x)) =
      (l.any (fun x => c x && p x) || l.any (fun x => c x && q x)) := by
  induction l with
  | nil => rfl
  | cons a l ih =>
    cases hc : c a <;> cases hp : p a <;> cases hq : q a <;>
      simp [List.any_cons, hc, hp, hq, ih]

/-- C7: all four membership queries perform the ambiguity-tolerant
lookup of the spec against their respective set (the either-context
query being the disjunction of the two per-set lookups), and in
particular a bare short name that is the tail of some reachable entry
answers true. -/
theorem membership_queries_lookup :
    (∀ (ta : Analyzer) (q : String),
        IsInputReachable ta q =
          memberLookup ta.inputReachableTypes ta.env.packageName ta.env.packageNames q) ∧
    (∀ (ta : Analyzer) (q : String),
        IsOutputReachable ta q =
          memberLookup ta.outputReachableTypes ta.env.packageName ta.env.packageNames q) ∧
    (∀ (ta : Analyzer) (q : String),
        IsTypeReachable ta q =
          (memberLookup ta.inputReachableTypes ta.env.packageName ta.env.packageNames q ||
           memberLookup ta.outputReachableTypes ta.env.packageName ta.env.packageNames q)) ∧
    (∀ (ta : Analyzer) (q : String),
        IsEnumReachable ta q =
          memberLookup ta.reachableEnums ta.env.packageName ta.env.packageNames q) ∧
    (∀ (ta : Analyzer) (q : String),
        0 < q.data.length → startsWithDot q = false →
        (∃ e, e ∈ ta.inputReachableTypes ∧ strEndsWith e ("." ++ q) = true) →
        IsInputReachable ta q = true) := by
  have hin : ∀ (ta : Analyzer) (q : String),
      IsInputReachable ta q =
        memberLookup ta.inputReachableTypes ta.env.packageName ta.env.packageNames q := by
    intro ta q
    unfold IsInputReachable memberLookup
    rw [ifchain_eq]
  have hout : ∀ (ta : Analyzer) (q : String),
      IsOutputReachable ta q =
        memberLookup ta.outputReachableTypes ta.env.packageName ta.env.packageNames q := by
    intro ta q
    unfold IsOutputReachable memberLookup
    rw [ifchain_eq]
  refine ⟨hin, hout, ?_, ?_, ?_⟩
  · intro ta q
    unfold IsTypeReachable memberLookup
    rw [any_and_or ta.env.packageNames (fun p => p != "" && p != ta.env.packageName)
      (fun p => ta.inputReachableTypes.contains ("." ++ p ++ "." ++ q))
      (fun p => ta.outputReachableTypes.contains ("." ++ p ++ "." ++ q))]
    rw [ifchain_eq_two]
  · intro ta q
    unfold IsEnumReachable memberLookup
    rw [ifchain_eq]
  · intro ta q hlen hdot hex
    rw [hin]
    unfold memberLookup
    have hany : ta.inputReachableTypes.any (fun e => strEndsWith e ("." ++ q)) = true := by
      rw [List.any_eq_true]
      obtain ⟨e, he, hse⟩ := hex
      exact ⟨e, he, hse⟩
    simp [hany, hdot]
    exact Or.inr hlen

/-- Witness for C7 discharging the suffix-lookup hypotheses at a
concrete state. -/
theorem membership_queries_lookup_witness :
    0 < ("N" : String).data.length ∧ startsWithDot "N" = false ∧
    (∃ e, e ∈ [".test.P.N"] ∧ strEndsWith e ("." ++ "N") = true) ∧
    IsInputReachable { NewTypeAnalyzer [] with inputReachableTypes := [".test.P.N"] } "N" = true :=
  ⟨by decide, by decide, ⟨".test.P.N", by decide, by decide⟩,
   membership_queries_lookup.2.2.2.2
     { NewTypeAnalyzer [] with inputReachableTypes := [".test.P.N"] } "N"
     (by decide) (by decide) ⟨".test.P.N", by decide, by decide⟩⟩


/-- Occurrence of a message in the descriptor forest along a chain of
ancestors each of which the projector actually processes (reachable in
either context with at least one field), ending at a message that is
itself reachable with at least one field. -/
inductive EmitOcc (ta : Analyzer) (pkg : String) :
    List MsgD → String → MsgD → String → Prop where
  | here {msgs : List MsgD} {pre : String} {m : MsgD} :
      m ∈ msgs → IsTypeReachable ta (fullNameOf pkg pre m.name) = true →
      m.fields ≠ [] → EmitOcc ta pkg msgs pre m (fullNameOf pkg pre m.name)
  | nest {msgs : List MsgD} {pre : String} {par m : MsgD} {fn : String} :
      par ∈ msgs → IsTypeReachable ta (fullNameOf pkg pre par.name) = true →
      par.fields ≠ [] →
      EmitOcc ta pkg par.nested (fullNameOf pkg pre par.name) m fn →
      EmitOcc ta pkg msgs pre m fn

/-- Occurrence survives extending the message list. -/
theorem EmitOcc.cons_of {ta : Analyzer} {pkg : String} {msgs : List MsgD} {pre : String}
    {m : MsgD} {fn : String} (hd : MsgD) (h : EmitOcc ta pkg msgs pre m fn) :
    EmitOcc ta pkg (hd :: msgs) pre m fn := by
  cases h with
  | here hm hr hf => exact EmitOcc.here (List.mem_cons_of_mem hd hm) hr hf
  | nest hp hr hf hocc => exact EmitOcc.nest (List.mem_cons_of_mem hd hp) hr hf hocc

/-- C3 (amended): the projector emits exactly one object type per
occurrence of a reachable message with at least one field whose
enclosing ancestors are each themselves reachable with at least one
field; in particular nothing is emitted for an unreachable or zero-field
message, and nothing nested below a skipped parent. -/
theorem projector_emission_rule :
    ∀ (ta : Analyzer) (pkg : String) (msgs : List MsgD) (pre : String) (o : ObjectTypeL),
      o ∈ (makeObjectTypesAux ta pkg msgs pre).1 ↔
        ∃ m fn, EmitOcc ta pkg msgs pre m fn ∧ o = ⟨m.name, m.fields⟩ := by
  intro ta pkg
  suffices main : ∀ (k : Nat) (msgs : List MsgD), sizeOf msgs ≤ k →
      ∀ (pre : String) (o : ObjectTypeL),
        o ∈ (makeObjectTypesAux ta pkg msgs pre).1 ↔
          ∃ m fn, EmitOcc ta pkg msgs pre m fn ∧ o = ⟨m.name, m.fields⟩ by
    intro msgs pre o
    exact main (sizeOf msgs) msgs (Nat.le_refl _) pre o
  intro k
  induction k with
  | zero =>
    intro msgs hk
    have : 0 < sizeOf msgs := by
      cases msgs <;> simp_arith
    omega
  | succ k ih =>
    intro msgs hk pre o
    match msgs with
    | [] =>
      constructor
      · intro h
        simp [makeObjectTypesAux] at h
      · rintro ⟨m, fn, hocc, rfl⟩
        cases hocc with
        | here hm _ _ => exact absurd hm (List.not_mem_nil _)
        | nest hp _ _ _ => exact absurd hp (List.not_mem_nil _)
    | MsgD.mk nm fl ns es :: rest =>
      have hk' := hk
      simp only [List.cons.sizeOf_spec, MsgD.mk.sizeOf_spec] at hk'
      have hns : sizeOf ns ≤ k := by omega
      have hrest : sizeOf rest ≤ k := by omega
      have hmem_split : ∀ x,
          x ∈ (makeObjectTypesAux ta pkg (MsgD.mk nm fl ns es :: rest) pre).1 ↔
            (x ∈ (makeObjectTypesOne ta pkg (MsgD.mk nm fl ns es) pre).1 ∨
             x ∈ (makeObjectTypesAux ta pkg rest pre).1) := by
        intro x
        simp [makeObjectTypesAux]
      rw [hmem_split]
      by_cases hreach : IsTypeReachable ta (fullNameOf pkg pre nm) = true
      · by_cases hfl : 0 < fl.length
        · have hone : (makeObjectTypesOne ta pkg (MsgD.mk nm fl ns es) pre).1 =
              (makeObjectTypesAux ta pkg ns (fullNameOf pkg pre nm)).1 ++ [⟨nm, fl⟩] := by
            simp [makeObjectTypesOne, hreach, hfl]
          rw [hone]
          constructor
          · intro h
            rcases h with h | h
            · rcases List.mem_append.mp h with h | h
              · obtain ⟨m, fn, hocc, rfl⟩ := (ih ns hns (fullNameOf pkg pre nm) o).mp h
                exact ⟨m, fn,
                  EmitOcc.nest (List.mem_cons_self _ _) hreach
                    (List.length_pos.mp hfl) hocc, rfl⟩
              · have ho : o = ⟨nm, fl⟩ := by simpa using h
                exact ⟨MsgD.mk nm fl ns es, fullNameOf pkg pre nm,
                  EmitOcc.here (List.mem_cons_self _ _) hreach (List.length_pos.mp hfl),
                  ho⟩
            · obtain ⟨m, fn, hocc, rfl⟩ := (ih rest hrest pre o).mp h
              exact ⟨m, fn, hocc.cons_of _, rfl⟩
          · rintro ⟨m, fn, hocc, rfl⟩
            cases hocc with
            | here hm hr hf =>
              rcases List.mem_cons.mp hm with rfl | hm
              · exact Or.inl (List.mem_append.mpr (Or.inr (by
                  simp [MsgD.name, MsgD.fields])))
              · exact Or.inr ((ih rest hrest pre _).mpr ⟨m, _, EmitOcc.here hm hr hf, rfl⟩)
            | nest hp hr hf hocc2 =>
              rcases List.mem_cons.mp hp with rfl | hp
              · exact Or.inl (List.mem_append.mpr (Or.inl
                  ((ih ns hns (fullNameOf pkg pre nm) _).mpr ⟨m, fn, hocc2, rfl⟩)))
              · exact Or.inr ((ih rest hrest pre _).mpr
                  ⟨m, fn, EmitOcc.nest hp hr hf hocc2, rfl⟩)
        · have hone : (makeObjectTypesOne ta pkg (MsgD.mk nm fl ns es) pre).1 = [] := by
            simp [makeObjectTypesOne, hreach, hfl]
          rw [hone]
          have hflnil : fl = [] := by
            cases fl with
            | nil => rfl
            | cons a l => exact absurd (by simp) hfl
          constructor
          · intro h
            rcases h with h | h
            · exact absurd h (List.not_mem_nil _)
            · obtain ⟨m, fn, hocc, rfl⟩ := (ih rest hrest pre o).mp h
              exact ⟨m, fn, hocc.cons_of _, rfl⟩
          · rintro ⟨m, fn, hocc, rfl⟩
            cases hocc with
            | here hm hr hf =>
              rcases List.mem_cons.mp hm with rfl | hm
              · exact absurd hflnil hf
              · exact Or.inr ((ih rest hrest pre _).mpr ⟨m, _, EmitOcc.here hm hr hf, rfl⟩)
            | nest hp hr hf hocc2 =>
              rcases List.mem_cons.mp hp with rfl | hp
              · exact absurd hflnil hf
              · exact Or.inr ((ih rest hrest pre _).mpr
                  ⟨m, fn, EmitOcc.nest hp hr hf hocc2, rfl⟩)
      · have hone : (makeObjectTypesOne ta pkg (MsgD.mk nm fl ns es) pre).1 = [] := by
          simp [makeObjectTypesOne, hreach]
        rw [hone]
        constructor
        · intro h
          rcases h with h | h
          · exact absurd h (List.not_mem_nil _)
          · obtain ⟨m, fn, hocc, rfl⟩ := (ih rest hrest pre o).mp h
            exact ⟨m, fn, hocc.cons_of _, rfl⟩
        · rintro ⟨m, fn, hocc, rfl⟩
          cases hocc with
          | here hm hr hf =>
            rcases List.mem_cons.mp hm with rfl | hm
            · exact absurd hr hreach
            · exact Or.inr ((ih rest hrest pre _).mpr ⟨m, _, EmitOcc.here hm hr hf, rfl⟩)
          | nest hp hr hf hocc2 =>
            rcases List.mem_cons.mp hp with rfl | hp
            · exact absurd hr hreach
            · exact Or.inr ((ih rest hrest pre _).mpr
                ⟨m, fn, EmitOcc.nest hp hr hf hocc2, rfl⟩)


/-- Test fixture: a reachable zero-field parent message with a nested
one-field message. -/
def zeroFieldParentFile : FileD :=
  { package := "test",
    messages :=
      [ MsgD.mk "P" [] [MsgD.mk "N" [⟨"x", FieldKind.scalar, ""⟩] [] []] [] ],
    enums := [], services := [] }

/-- Counterexample to C3 as stated: after marking the parent P as input,
the nested message N is reachable in either context and has one field,
yet the projector emits no object type at all (in particular none named
N), because the zero-field parent is skipped before its nested messages
are visited. -/
theorem projector_emission_rule_counterexample :
    (MarkTypeReachableAsInput 3 (NewTypeAnalyzer [zeroFieldParentFile]) ".test.P").map
      (fun ta =>
        IsTypeReachable ta ".test.P.N" &&
        (makeObjectTypes ta "test" zeroFieldParentFile.messages).1.all
          (fun o => o.name != "N") &&
        ((makeObjectTypes ta "test" zeroFieldParentFile.messages).1.length == 0)) = some true ∧
    (MsgD.mk "N" [⟨"x", FieldKind.scalar, ""⟩] [] []).fields.length = 1 :=
  ⟨by decide, rfl⟩


/-- The resolved-input-record construction preserves the empty-sentinel
flag computed by parseType. -/
theorem getGqlInputType_empty (gi : GqlInput) (mi pkg : String) :
    (getGqlInputType (some gi) mi pkg).empty = (parseType gi).empty := by
  simp only [getGqlInputType]
  by_cases ht : (gi.type != "") = true
  · simp only [ht, if_true]
    by_cases h1 : (!(parseType gi).primitive && !(parseType gi).empty) = true
    · simp [h1]
    · by_cases h2 : (parseType gi).array = true
      · simp [h1, h2]
      · simp [h1, h2]
  · have ht' : gi.type = "" := by simpa using ht
    simp only [ht, if_false]
    simp only [parseType, ht', if_pos]
    simp

/-- Test fixture: an admitted query endpoint whose gql_input override
resolves to the empty sentinel. -/
def emptyInputMethod : MethodD :=
  { name := "Ping", inputType := ".test.Empty", outputType := ".test.Pong",
    options := some { kind := "query", target := "all", skip := false,
                      gqlInput := some { emptyGqlInput with type := "empty" },
                      gqlOutput := "" } }

/-- Test fixture: the service holding the empty-input endpoint. -/
def emptyInputService : ServiceD := { name := "S", methods := [emptyInputMethod] }

/-- C4: an endpoint whose resolved input type is the designated empty
sentinel generates no input parameter: the derived record keeps the
empty flag, the renderer attaches no parameter, and the concrete
admitted endpoint with an override resolving to the sentinel produces a
single query entry with an empty parameter list. -/
theorem empty_sentinel_no_input_param :
    (∀ (gi : GqlInput) (mi pkg : String),
        (parseType gi).empty = true →
          (getGqlInputType (some gi) mi pkg).empty = true ∧
          renderedParams (getGqlInputType (some gi) mi pkg) = []) ∧
    (∀ (m : MethodD) (pkg : String) (gi : GqlInput),
        (getMethodOptions m).gqlInput = some gi →
        (parseType gi).empty = true →
        renderedParams (getGqlInputType (getMethodOptions m).gqlInput m.inputType pkg) = []) ∧
    ((addQueriesAndMutations "test" "all" [emptyInputService]).1.length = 1 ∧
     (addQueriesAndMutations "test" "all" [emptyInputService]).1.all
       (fun q => (renderedParams q.input).isEmpty) = true) := by
  have h1 : ∀ (gi : GqlInput) (mi pkg : String),
      (parseType gi).empty = true →
        (getGqlInputType (some gi) mi pkg).empty = true ∧
        renderedParams (getGqlInputType (some gi) mi pkg) = [] := by
    intro gi mi pkg h
    have he : (getGqlInputType (some gi) mi pkg).empty = true := by
      rw [getGqlInputType_empty]; exact h
    exact ⟨he, by simp [renderedParams, he]⟩
  refine ⟨h1, ?_, by decide, by decide⟩
  intro m pkg gi hgi h
  rw [hgi]
  exact (h1 gi m.inputType pkg h).2

/-- Witness for C4 discharging the sentinel hypothesis at the concrete
override record. -/
theorem empty_sentinel_no_input_param_witness :
    (parseType { emptyGqlInput with type := "empty" }).empty = true ∧
    renderedParams (getGqlInputType (some { emptyGqlInput with type := "empty" })
      ".test.Empty" "test") = [] :=
  ⟨by decide,
   (empty_sentinel_no_input_param.1 { emptyGqlInput with type := "empty" }
     ".test.Empty" "test" (by decide)).2⟩


/-- The raw successor references of a registered type: the qualified
nested-message names and the message-typed field references, exactly the
names the marking body recurses on. -/
def rawSuccs (env : Env) (x : String) : List String :=
  match lookupType env x with
  | none => []
  | some d =>
    d.nested.map (fun n => x ++ "." ++ n.name) ++
      d.fields.filterMap (fun f =>
        match f.kind with
        | FieldKind.message => some f.typeName
        | _ => none)

/-- The enum names one processed type contributes to the reachable-enum
set: its qualified nested enums plus the resolved enum-typed field
references. -/
def enumContrib (env : Env) (x : String) : List String :=
  match lookupType env x with
  | none => []
  | some d =>
    d.enums.map (fun e => x ++ "." ++ e.name) ++
      d.fields.filterMap (fun f =>
        match f.kind with
        | FieldKind.enum => some (ResolveEnumName env f.typeName)
        | _ => none)

/-- One dependency edge: a raw successor reference whose resolution is
registered. -/
def Edge (env : Env) (x y : String) : Prop :=
  ∃ r, r ∈ rawSuccs env x ∧ y = ResolveTypeName env r ∧ hasType env y = true

/-- Transitive dependency reachability from one seed reference. -/
inductive Reaches (env : Env) (seed : String) : String → Prop where
  | base : hasType env (ResolveTypeName env seed) = true →
      Reaches env seed (ResolveTypeName env seed)
  | step {x y : String} : Reaches env seed x → Edge env x y → Reaches env seed y

/-- Reachability from a raw successor grafts onto reachability of the
node it hangs from. -/
theorem Reaches.graft {env : Env} {seed x raw y : String} (hx : Reaches env seed x)
    (hr : raw ∈ rawSuccs env x) (hy : Reaches env raw y) : Reaches env seed y := by
  induction hy with
  | base hreg => exact Reaches.step hx ⟨raw, hr, rfl, hreg⟩
  | step _ he ih => exact Reaches.step ih he

/-- Elements of the enum-registration fold. -/
theorem mem_foldl_cons_iff {α : Type _} (f : α → String) :
    ∀ (l : List α) (init : List String) (x : String),
      x ∈ l.foldl (fun es e => f e :: es) init ↔ x ∈ init ∨ ∃ a ∈ l, x = f a := by
  intro l
  induction l with
  | nil => intro init x; simp
  | cons a l ih =>
    intro init x
    rw [List.foldl_cons, ih]
    constructor
    · rintro (h | ⟨b, hb, rfl⟩)
      · rcases List.mem_cons.mp h with rfl | h
        · exact Or.inr ⟨a, List.mem_cons_self a l, rfl⟩
        · exact Or.inl h
      · exact Or.inr ⟨b, List.mem_cons_of_mem _ hb, rfl⟩
    · rintro (h | ⟨b, hb, rfl⟩)
      · exact Or.inl (List.mem_cons_of_mem _ h)
      · rcases List.mem_cons.mp hb with rfl | hb
        · exact Or.inl (List.mem_cons_self _ _)
        · exact Or.inr ⟨b, hb, rfl⟩

/-- Threading a predicate through an option-valued fold. -/
theorem foldlM_pred {α β : Type _} (P : β → Prop) (g : β → α → Option β) :
    ∀ (l : List α), (∀ t a t', a ∈ l → P t → g t a = some t' → P t') →
      ∀ t t', List.foldlM g t l = some t' → P t → P t' := by
  intro l
  induction l with
  | nil =>
    intro _ t t' h ht
    simp only [List.foldlM_nil, Option.pure_def, Option.some.injEq] at h
    exact h ▸ ht
  | cons a l ih =>
    intro hg t t' h ht
    rw [List.foldlM_cons] at h
    obtain ⟨u, hu, hrest⟩ := Option.bind_eq_some.mp h
    exact ih (fun t a t' ha => hg t a t' (List.mem_cons_of_mem _ ha)) u t' hrest
      (hg t a u (List.mem_cons_self a l) ht hu)

/-- A per-element property established by the fold step for its element
and preserved by every later step holds of every element at the end. -/
theorem foldlM_establish {α β : Type _} (P : α → β → Prop) (g : β → α → Option β) :
    ∀ (l : List α),
      (∀ t a t', a ∈ l → g t a = some t' → P a t') →
      (∀ a u b u', a ∈ l → b ∈ l → P a u → g u b = some u' → P a u') →
      ∀ t t', List.foldlM g t l = some t' → ∀ a ∈ l, P a t' := by
  intro l
  induction l with
  | nil => intro _ _ _ _ _ a ha; exact absurd ha (List.not_mem_nil a)
  | cons c l ih =>
    intro hest hpers t t' h a ha
    rw [List.foldlM_cons] at h
    obtain ⟨u, hu, hrest⟩ := Option.bind_eq_some.mp h
    rcases List.mem_cons.mp ha with rfl | ha
    · have hPu : P a u := hest t a u (List.mem_cons_self a l) hu
      exact foldlM_pred (P a) g l
        (fun t b t' hb hP hgb =>
          hpers a t b t' (List.mem_cons_self a l) (List.mem_cons_of_mem _ hb) hP hgb)
        u t' hrest hPu
    · exact ih
        (fun t b t' hb hgb => hest t b t' (List.mem_cons_of_mem _ hb) hgb)
        (fun b u1 b2 u2 hb hb2 hP hgb =>
          hpers b u1 b2 u2 (List.mem_cons_of_mem _ hb) (List.mem_cons_of_mem _ hb2) hP hgb)
        u t' hrest a ha

/-- Every element newly present after an option-valued fold entered at
one identifiable step, and that step precedes states whose enum lists
inject into the final one. -/
theorem foldlM_delta {β : Type _} {α : Type _} (g : β → α → Option β)
    (reachOf enumsOf : β → List String) :
    ∀ (l : List α),
      (∀ u a u', a ∈ l → g u a = some u' → ∀ e ∈ enumsOf u, e ∈ enumsOf u') →
      ∀ (t t' : β), List.foldlM g t l = some t' →
      ∀ x, x ∈ reachOf t' → x ∉ reachOf t →
        ∃ a u u', a ∈ l ∧ g u a = some u' ∧ x ∈ reachOf u' ∧ x ∉ reachOf u ∧
          (∀ e ∈ enumsOf u', e ∈ enumsOf t') := by
  intro l
  induction l with
  | nil =>
    intro _ t t' h x hx hnx
    simp only [List.foldlM_nil, Option.pure_def, Option.some.injEq] at h
    exact absurd (h ▸ hx) hnx
  | cons a l ih =>
    intro hmono t t' h x hx hnx
    rw [List.foldlM_cons] at h
    obtain ⟨u, hu, hrest⟩ := Option.bind_eq_some.mp h
    by_cases hxu : x ∈ reachOf u
    · refine ⟨a, t, u, List.mem_cons_self a l, hu, hxu, hnx, ?_⟩
      intro e he
      exact foldlM_pred (fun v => e ∈ enumsOf v) g l
        (fun v b v' hb hP hgb => hmono v b v' (List.mem_cons_of_mem _ hb) hgb e hP)
        u t' hrest he
    · obtain ⟨b, v, v', hb, hgb, h1, h2, h3⟩ :=
        ih (fun u a u' ha => hmono u a u' (List.mem_cons_of_mem _ ha)) u t' hrest x hx hxu
      exact ⟨b, v, v', List.mem_cons_of_mem _ hb, hgb, h1, h2, h3⟩


/-- Soundness of one marking call: every newly reachable name is
graph-reachable from the seed, and every newly recorded enum is the
contribution of some newly reachable name. -/
theorem markCore_sound (env : Env) :
    ∀ (fuel : Nat) (s : MarkState) (n : String) (t : MarkState),
      markCore env fuel s n = some t →
      (∀ y, y ∈ t.reach → y ∈ s.reach ∨ Reaches env n y) ∧
      (∀ e, e ∈ t.enums → e ∈ s.enums ∨
        ∃ x, x ∈ t.reach ∧ x ∉ s.reach ∧ e ∈ enumContrib env x) := by
  intro fuel
  induction fuel with
  | zero => intro s n t h; simp [markCore] at h
  | succ fuel ih =>
    intro s n t h
    simp only [markCore] at h
    split at h
    · injection h with h
      subst h
      exact ⟨fun y hy => Or.inl hy, fun e he => Or.inl he⟩
    · rename_i hguard
      split at h
      · injection h with h
        subst h
        exact ⟨fun y hy => Or.inl hy, fun e he => Or.inl he⟩
      · rename_i descriptor hlk
        split at h
        · exact Option.noConfusion h
        · rename_i s2 hf1
          split at h
          · exact Option.noConfusion h
          · rename_i s4 hf2
            injection h with h
            subst h
            set r := ResolveTypeName env n with hr
            have hnotr : r ∉ s.reach := by
              intro hmem
              exact hguard (by simp [hmem])
            have hty : hasType env r = true := by simp [hasType, hlk]
            have hnr : Reaches env n r := Reaches.base hty
            have hsucc : rawSuccs env r =
                descriptor.nested.map (fun n => r ++ "." ++ n.name) ++
                  descriptor.fields.filterMap (fun f =>
                    match f.kind with
                    | FieldKind.message => some f.typeName
                    | _ => none) := by
              simp [rawSuccs, hlk]
            have hcontrib : enumContrib env r =
                descriptor.enums.map (fun e => r ++ "." ++ e.name) ++
                  descriptor.fields.filterMap (fun f =>
                    match f.kind with
                    | FieldKind.enum => some (ResolveEnumName env f.typeName)
                    | _ => none) := by
              simp [enumContrib, hlk]
            set Q : MarkState → Prop := fun t =>
              r ∈ t.reach ∧ (∀ x ∈ s.reach, x ∈ t.reach) ∧
              (∀ y ∈ t.reach, y ∈ s.reach ∨ Reaches env n y) ∧
              (∀ e ∈ t.enums, e ∈ s.enums ∨
                ∃ x, x ∈ t.reach ∧ x ∉ s.reach ∧ e ∈ enumContrib env x) with hQ
            have hQmark : ∀ (u : MarkState) (raw : String) (u' : MarkState),
                raw ∈ rawSuccs env r → markCore env fuel u raw = some u' → Q u → Q u' := by
              intro u raw u' hraw hcall hQu
              have hfr := markCore_frame env fuel u raw u' hcall
              have hs := ih u raw u' hcall
              refine ⟨hfr.1 r hQu.1, fun x hx => hfr.1 x (hQu.2.1 x hx), ?_, ?_⟩
              · intro y hy
                rcases hs.1 y hy with hy1 | hy2
                · exact hQu.2.2.1 y hy1
                · exact Or.inr (Reaches.graft hnr hraw hy2)
              · intro e he
                rcases hs.2 e he with he1 | ⟨x, hx1, hx2, hx3⟩
                · rcases hQu.2.2.2 e he1 with h1 | ⟨x, hx1, hx2, hx3⟩
                  · exact Or.inl h1
                  · exact Or.inr ⟨x, hfr.1 x hx1, hx2, hx3⟩
                · refine Or.inr ⟨x, hx1, ?_, hx3⟩
                  intro hxs
                  exact hx2 (hQu.2.1 x hxs)
            have hQ1 : Q ⟨r :: s.reach, r :: s.inProg, s.enums⟩ := by
              refine ⟨List.mem_cons_self _ _, fun x hx => List.mem_cons_of_mem _ hx, ?_,
                fun e he => Or.inl he⟩
              intro y hy
              rcases List.mem_cons.mp hy with rfl | hy
              · exact Or.inr hnr
              · exact Or.inl hy
            have hQ2 : Q s2 := by
              refine foldlM_pred Q _ descriptor.nested ?_ _ s2 hf1 hQ1
              intro t a t' ha hQt hcall
              refine hQmark t _ t' ?_ hcall hQt
              rw [hsucc]
              exact List.mem_append.mpr (Or.inl (List.mem_map.mpr ⟨a, ha, rfl⟩))
            have hQ3 : Q ⟨s2.reach, s2.inProg,
                descriptor.enums.foldl (fun es e => (r ++ "." ++ e.name) :: es) s2.enums⟩ := by
              refine ⟨hQ2.1, hQ2.2.1, hQ2.2.2.1, ?_⟩
              intro e he
              rcases (mem_foldl_cons_iff _ descriptor.enums s2.enums e).mp he with he1 | ⟨a, ha, rfl⟩
              · exact hQ2.2.2.2 e he1
              · refine Or.inr ⟨r, hQ2.1, hnotr, ?_⟩
                rw [hcontrib]
                exact List.mem_append.mpr (Or.inl (List.mem_map.mpr ⟨a, ha, rfl⟩))
            have hQ4 : Q s4 := by
              refine foldlM_pred Q _ descriptor.fields ?_ _ s4 hf2 hQ3
              intro t a t' ha hQt hcall
              cases hk : a.kind
              · simp only [hk, Option.some.injEq] at hcall
                exact hcall ▸ hQt
              · simp only [hk] at hcall
                refine hQmark t _ t' ?_ hcall hQt
                rw [hsucc]
                refine List.mem_append.mpr (Or.inr (List.mem_filterMap.mpr ⟨a, ha, ?_⟩))
                simp [hk]
              · simp only [hk, Option.some.injEq] at hcall
                subst hcall
                refine ⟨hQt.1, hQt.2.1, hQt.2.2.1, ?_⟩
                intro e he
                rcases List.mem_cons.mp he with rfl | he
                · refine Or.inr ⟨r, hQt.1, hnotr, ?_⟩
                  rw [hcontrib]
                  refine List.mem_append.mpr (Or.inr (List.mem_filterMap.mpr ⟨a, ha, ?_⟩))
                  simp [hk]
                · exact hQt.2.2.2 e he
            exact ⟨hQ4.2.2.1, hQ4.2.2.2⟩


/-- The closedness invariant of the marking recursion: in-progress names
are already reachable, and every finished reachable name has all its
edges inside the reachable set. -/
def InvC (env : Env) (s : MarkState) : Prop :=
  (∀ x, x ∈ s.inProg → x ∈ s.reach) ∧
  (∀ x, x ∈ s.reach → x ∉ s.inProg → ∀ y, Edge env x y → y ∈ s.reach)

/-- An invariant-carrying version of the per-element fold lemma. -/
theorem foldlM_establish_inv {α β : Type _} (I : β → Prop) (P : α → β → Prop)
    (g : β → α → Option β) :
    ∀ (l : List α),
      (∀ t a t', a ∈ l → I t → g t a = some t' → I t') →
      (∀ t a t', a ∈ l → I t → g t a = some t' → P a t') →
      (∀ a u b u', a ∈ l → b ∈ l → P a u → g u b = some u' → P a u') →
      ∀ t t', List.foldlM g t l = some t' → I t → ∀ a ∈ l, P a t' := by
  intro l
  induction l with
  | nil => intro _ _ _ _ _ _ _ a ha; exact absurd ha (List.not_mem_nil a)
  | cons c l ih =>
    intro hinv hest hpers t t' h hI a ha
    rw [List.foldlM_cons] at h
    obtain ⟨u, hu, hrest⟩ := Option.bind_eq_some.mp h
    have hIu : I u := hinv t c u (List.mem_cons_self c l) hI hu
    rcases List.mem_cons.mp ha with rfl | ha
    · have hPu : P a u := hest t a u (List.mem_cons_self a l) hI hu
      exact foldlM_pred (P a) g l
        (fun t b t' hb hP hgb =>
          hpers a t b t' (List.mem_cons_self a l) (List.mem_cons_of_mem _ hb) hP hgb)
        u t' hrest hPu
    · exact ih
        (fun t b t' hb => hinv t b t' (List.mem_cons_of_mem _ hb))
        (fun t b t' hb => hest t b t' (List.mem_cons_of_mem _ hb))
        (fun b u1 b2 u2 hb hb2 => hpers b u1 b2 u2 (List.mem_cons_of_mem _ hb)
          (List.mem_cons_of_mem _ hb2))
        u t' hrest hIu a ha

/-- One marking call preserves the closedness invariant and, when the
resolved seed is registered, leaves it reachable. -/
theorem markCore_closed (env : Env) :
    ∀ (fuel : Nat) (s : MarkState) (n : String) (t : MarkState),
      markCore env fuel s n = some t → InvC env s →
      InvC env t ∧
        (hasType env (ResolveTypeName env n) = true → ResolveTypeName env n ∈ t.reach) := by
  intro fuel
  induction fuel with
  | zero => intro s n t h; simp [markCore] at h
  | succ fuel ih =>
    intro s n t h hInv
    have hdi := markCore_cases env h
    simp only [markCore] at h
    split at h
    · rename_i hguard
      injection h with h
      subst h
      refine ⟨hInv, fun hty => ?_⟩
      rcases (Bool.or_eq_true _ _).mp hguard with h1 | h1
      · simpa using h1
      · exact hInv.1 _ (by simpa using h1)
    · rename_i hguard
      split at h
      · rename_i hlk
        injection h with h
        subst h
        refine ⟨hInv, fun hty => ?_⟩
        rw [hasType, hlk] at hty
        simp at hty
      · rename_i descriptor hlk
        split at h
        · exact Option.noConfusion h
        · rename_i s2 hf1
          split at h
          · exact Option.noConfusion h
          · rename_i s4 hf2
            injection h with h
            subst h
            set r := ResolveTypeName env n with hr
            have hnotr : r ∉ s.reach := fun hmem => hguard (by simp [hmem])
            have hnotp : r ∉ s.inProg := fun hmem => hguard (by simp [hmem])
            have hsucc : rawSuccs env r =
                descriptor.nested.map (fun n => r ++ "." ++ n.name) ++
                  descriptor.fields.filterMap (fun f =>
                    match f.kind with
                    | FieldKind.message => some f.typeName
                    | _ => none) := by
              simp [rawSuccs, hlk]
            -- frames through the folds
            have fr1 : Frame env ⟨r :: s.reach, r :: s.inProg, s.enums⟩ s2 :=
              foldlM_rel (Frame env) (Frame.refl env)
                (fun _ _ _ h1 h2 => Frame.trans h1 h2) _ descriptor.nested
                (fun t a t' _ hc => markCore_frame env fuel t _ t' hc) _ s2 hf1
            have fr3 : Frame env ⟨s2.reach, s2.inProg,
                descriptor.enums.foldl (fun es e => (r ++ "." ++ e.name) :: es) s2.enums⟩ s4 := by
              refine foldlM_rel (Frame env) (Frame.refl env)
                (fun _ _ _ h1 h2 => Frame.trans h1 h2) _ descriptor.fields ?_ _ s4 hf2
              intro t a t' _ hc
              cases hk : a.kind
              · simp only [hk, Option.some.injEq] at hc
                exact hc ▸ Frame.refl env t
              · simp only [hk] at hc
                exact markCore_frame env fuel t _ t' hc
              · simp only [hk, Option.some.injEq] at hc
                exact hc ▸ ⟨fun x hx => hx, rfl, fun e he => List.mem_cons_of_mem _ he,
                  fun x hx => Or.inl hx⟩
            have hs4inProg : s4.inProg = r :: s.inProg := by
              rw [fr3.2.1, fr1.2.1]
            have hs1r : ∀ x ∈ (r :: s.reach), x ∈ s4.reach := by
              intro x hx
              exact fr3.1 x (fr1.1 x hx)
            -- the invariant threaded through both folds
            set I : MarkState → Prop := fun t =>
              t.inProg = r :: s.inProg ∧ (∀ x ∈ (r :: s.reach), x ∈ t.reach) ∧ InvC env t
              with hIdef
            have hInv1 : InvC env ⟨r :: s.reach, r :: s.inProg, s.enums⟩ := by
              constructor
              · intro x hx
                rcases List.mem_cons.mp hx with rfl | hx
                · exact List.mem_cons_self _ _
                · exact List.mem_cons_of_mem _ (hInv.1 x hx)
              · intro x hx hnx y hy
                have hxr : x ≠ r := fun hxe => hnx (hxe ▸ List.mem_cons_self _ _)
                have hxs : x ∈ s.reach := by
                  rcases List.mem_cons.mp hx with rfl | hx
                  · exact absurd rfl hxr
                  · exact hx
                have hnxp : x ∉ s.inProg := fun hp => hnx (List.mem_cons_of_mem _ hp)
                exact List.mem_cons_of_mem _ (hInv.2 x hxs hnxp y hy)
            have hI1 : I ⟨r :: s.reach, r :: s.inProg, s.enums⟩ :=
              ⟨rfl, fun x hx => hx, hInv1⟩
            -- the seed-in property for one recursive call under I
            have hseed : ∀ (u : MarkState) (raw : String) (u' : MarkState),
                markCore env fuel u raw = some u' → I u →
                hasType env (ResolveTypeName env raw) = true →
                ResolveTypeName env raw ∈ u'.reach := by
              intro u raw u' hcall hIu hty
              rcases markCore_cases env hcall with hm | ⟨heq, hg⟩ | ⟨heq, hl⟩
              · exact hm
              · rw [heq]
                rcases (Bool.or_eq_true _ _).mp hg with h1 | h1
                · simpa using h1
                · have hin : ResolveTypeName env raw ∈ u.inProg := by simpa using h1
                  rw [hIu.1] at hin
                  rcases List.mem_cons.mp hin with he | he
                  · exact he ▸ hIu.2.1 r (List.mem_cons_self _ _)
                  · exact hIu.2.1 _ (List.mem_cons_of_mem _ (hInv.1 _ he))
              · rw [hasType, hl] at hty
                simp at hty
            -- I is preserved by the fold steps
            have hIstepN : ∀ (t : MarkState) (a : MsgD) (t' : MarkState), a ∈ descriptor.nested →
                I t → markCore env fuel t (r ++ "." ++ a.name) = some t' → I t' := by
              intro t a t' _ hIt hcall
              have hfr := markCore_frame env fuel t _ t' hcall
              exact ⟨hfr.2.1.trans hIt.1, fun x hx => hfr.1 x (hIt.2.1 x hx),
                (ih t _ t' hcall hIt.2.2).1⟩
            have hestN : ∀ a ∈ descriptor.nested,
                (hasType env (ResolveTypeName env (r ++ "." ++ a.name)) = true →
                  ResolveTypeName env (r ++ "." ++ a.name) ∈ s2.reach) := by
              refine foldlM_establish_inv I
                (fun (a : MsgD) (u : MarkState) =>
                  hasType env (ResolveTypeName env (r ++ "." ++ a.name)) = true →
                    ResolveTypeName env (r ++ "." ++ a.name) ∈ u.reach)
                _ descriptor.nested
                (fun t a t' ha => hIstepN t a t' ha)
                ?_ ?_ _ s2 hf1 hI1
              · intro t a t' _ hIt hcall hty
                exact hseed t _ t' hcall hIt hty
              · intro a u b u' _ _ hP hcall hty
                exact (markCore_frame env fuel u _ u' hcall).1 _ (hP hty)
            have hI2 : I s2 :=
              foldlM_pred I _ descriptor.nested hIstepN _ s2 hf1 hI1
            have hI3 : I ⟨s2.reach, s2.inProg,
                descriptor.enums.foldl (fun es e => (r ++ "." ++ e.name) :: es) s2.enums⟩ :=
              ⟨hI2.1, hI2.2.1, hI2.2.2.1, fun x hx hnx y hy => hI2.2.2.2 x hx hnx y hy⟩
            have hIstepF : ∀ (t : MarkState) (a : FieldD) (t' : MarkState),
                a ∈ descriptor.fields → I t →
                (fun (t : MarkState) (f : FieldD) =>
                  match f.kind with
                  | FieldKind.message => markCore env fuel t f.typeName
                  | FieldKind.enum =>
                    some { t with enums := ResolveEnumName env f.typeName :: t.enums }
                  | FieldKind.scalar => some t) t a = some t' → I t' := by
              intro t a t' _ hIt hcall
              cases hk : a.kind
              · simp only [hk, Option.some.injEq] at hcall
                exact hcall ▸ hIt
              · simp only [hk] at hcall
                have hfr := markCore_frame env fuel t _ t' hcall
                exact ⟨hfr.2.1.trans hIt.1, fun x hx => hfr.1 x (hIt.2.1 x hx),
                  (ih t _ t' hcall hIt.2.2).1⟩
              · simp only [hk, Option.some.injEq] at hcall
                subst hcall
                exact ⟨hIt.1, hIt.2.1, hIt.2.2.1, fun x hx hnx y hy => hIt.2.2.2 x hx hnx y hy⟩
            have hestF : ∀ a ∈ descriptor.fields,
                (a.kind = FieldKind.message →
                  hasType env (ResolveTypeName env a.typeName) = true →
                  ResolveTypeName env a.typeName ∈ s4.reach) := by
              refine foldlM_establish_inv I
                (fun (a : FieldD) (u : MarkState) =>
                  a.kind = FieldKind.message →
                    hasType env (ResolveTypeName env a.typeName) = true →
                    ResolveTypeName env a.typeName ∈ u.reach)
                _ descriptor.fields hIstepF ?_ ?_ _ s4 hf2 hI3
              · intro t a t' _ hIt hcall hk hty
                rw [hk] at hcall
                exact hseed t _ t' hcall hIt hty
              · intro a u b u' _ _ hP hcall hk hty
                cases hkb : b.kind
                · simp only [hkb, Option.some.injEq] at hcall
                  exact hcall ▸ hP hk hty
                · simp only [hkb] at hcall
                  exact (markCore_frame env fuel u _ u' hcall).1 _ (hP hk hty)
                · simp only [hkb, Option.some.injEq] at hcall
                  subst hcall
                  exact hP hk hty
            have hI4 : I s4 :=
              foldlM_pred I _ descriptor.fields hIstepF _ s4 hf2 hI3
            -- closedness of r itself
            have hclosedr : ∀ y, Edge env r y → y ∈ s4.reach := by
              rintro y ⟨raw, hraw, rfl, hty⟩
              rw [hsucc] at hraw
              rcases List.mem_append.mp hraw with hraw | hraw
              · obtain ⟨a, ha, rfl⟩ := List.mem_map.mp hraw
                exact fr3.1 _ (hestN a ha hty)
              · obtain ⟨f, hf, hfe⟩ := List.mem_filterMap.mp hraw
                cases hk : f.kind
                · rw [hk] at hfe; simp at hfe
                · rw [hk] at hfe
                  simp only [Option.some.injEq] at hfe
                  subst hfe
                  exact hestF f hf hk hty
                · rw [hk] at hfe; simp at hfe
            have hterase : s4.inProg.erase r = s.inProg := by
              rw [hs4inProg, List.erase_cons_head]
            refine ⟨⟨?_, ?_⟩, fun _ => hs1r r (List.mem_cons_self _ _)⟩
            · intro x hx
              show x ∈ s4.reach
              have hx2 : x ∈ s.inProg := by
                rw [← hterase]
                exact hx
              exact hs1r x (List.mem_cons_of_mem _ (hInv.1 x hx2))
            · intro x hx hnx y hy
              show y ∈ s4.reach
              have hnx2 : x ∉ s.inProg := by
                rw [← hterase]
                exact hnx
              by_cases hxr : x = r
              · subst hxr
                exact hclosedr y hy
              · have hxp4 : x ∉ s4.inProg := by
                  rw [hs4inProg]
                  intro hc
                  rcases List.mem_cons.mp hc with rfl | hc
                  · exact hxr rfl
                  · exact hnx2 hc
                exact hI4.2.2.2 x hx hxp4 y hy


/-- Completeness of enum recording: every enum contribution of a newly
reachable name is present in the final enum set. -/
theorem markCore_enum_complete (env : Env) :
    ∀ (fuel : Nat) (s : MarkState) (n : String) (t : MarkState),
      markCore env fuel s n = some t →
      ∀ x, x ∈ t.reach → x ∉ s.reach → ∀ e, e ∈ enumContrib env x → e ∈ t.enums := by
  intro fuel
  induction fuel with
  | zero => intro s n t h; simp [markCore] at h
  | succ fuel ih =>
    intro s n t h x hx hnx e he
    simp only [markCore] at h
    split at h
    · injection h with h
      subst h
      exact absurd hx hnx
    · rename_i hguard
      split at h
      · injection h with h
        subst h
        exact absurd hx hnx
      · rename_i descriptor hlk
        split at h
        · exact Option.noConfusion h
        · rename_i s2 hf1
          split at h
          · exact Option.noConfusion h
          · rename_i s4 hf2
            injection h with h
            subst h
            set r := ResolveTypeName env n with hr
            have hcontrib : enumContrib env r =
                descriptor.enums.map (fun e => r ++ "." ++ e.name) ++
                  descriptor.fields.filterMap (fun f =>
                    match f.kind with
                    | FieldKind.enum => some (ResolveEnumName env f.typeName)
                    | _ => none) := by
              simp [enumContrib, hlk]
            have fr3 : Frame env ⟨s2.reach, s2.inProg,
                descriptor.enums.foldl (fun es e => (r ++ "." ++ e.name) :: es) s2.enums⟩ s4 := by
              refine foldlM_rel (Frame env) (Frame.refl env)
                (fun _ _ _ h1 h2 => Frame.trans h1 h2) _ descriptor.fields ?_ _ s4 hf2
              intro t a t' _ hc
              cases hk : a.kind
              · simp only [hk, Option.some.injEq] at hc
                exact hc ▸ Frame.refl env t
              · simp only [hk] at hc
                exact markCore_frame env fuel t _ t' hc
              · simp only [hk, Option.some.injEq] at hc
                exact hc ▸ ⟨fun x hx => hx, rfl, fun e he => List.mem_cons_of_mem _ he,
                  fun x hx => Or.inl hx⟩
            have hs3s4 : ∀ e', e' ∈ descriptor.enums.foldl
                (fun es e => (r ++ "." ++ e.name) :: es) s2.enums → e' ∈ s4.enums := by
              intro e' he'
              exact fr3.2.2.1 e' he'
            show e ∈ s4.enums
            by_cases hxr : x = r
            · subst hxr
              rw [hcontrib] at he
              rcases List.mem_append.mp he with he | he
              · obtain ⟨a, ha, rfl⟩ := List.mem_map.mp he
                exact hs3s4 _ ((mem_foldl_cons_iff _ descriptor.enums s2.enums _).mpr
                  (Or.inr ⟨a, ha, rfl⟩))
              · obtain ⟨f, hf, hfe⟩ := List.mem_filterMap.mp he
                cases hk : f.kind
                · rw [hk] at hfe; simp at hfe
                · rw [hk] at hfe; simp at hfe
                · rw [hk] at hfe
                  simp only [Option.some.injEq] at hfe
                  subst hfe
                  -- established during the field fold
                  refine foldlM_establish
                    (fun (f : FieldD) (u : MarkState) =>
                      f.kind = FieldKind.enum → ResolveEnumName env f.typeName ∈ u.enums)
                    _ descriptor.fields ?_ ?_ _ s4 hf2 f hf hk
                  · intro t a t' _ hcall hka
                    rw [hka] at hcall
                    simp only [Option.some.injEq] at hcall
                    subst hcall
                    exact List.mem_cons_self _ _
                  · intro a u b u' _ _ hP hcall hka
                    cases hkb : b.kind
                    · simp only [hkb, Option.some.injEq] at hcall
                      exact hcall ▸ hP hka
                    · simp only [hkb] at hcall
                      exact (markCore_frame env fuel u _ u' hcall).2.2.1 _ (hP hka)
                    · simp only [hkb, Option.some.injEq] at hcall
                      subst hcall
                      exact List.mem_cons_of_mem _ (hP hka)
            · -- x entered during one of the folds
              have hxs1 : x ∉ (⟨r :: s.reach, r :: s.inProg, s.enums⟩ : MarkState).reach := by
                intro hc
                rcases List.mem_cons.mp hc with rfl | hc
                · exact hxr rfl
                · exact hnx hc
              by_cases hx2 : x ∈ s2.reach
              · obtain ⟨a, u, u', ha, hcall, hxu', hxu, hmono⟩ :=
                  foldlM_delta _ MarkState.reach MarkState.enums descriptor.nested
                    (fun u a u' _ hc => (markCore_frame env fuel u _ u' hc).2.2.1)
                    _ s2 hf1 x hx2 hxs1
                have := ih u _ u' hcall x hxu' hxu e he
                exact hs3s4 _ ((mem_foldl_cons_iff _ descriptor.enums s2.enums _).mpr
                  (Or.inl (hmono e this)))
              · have hxs3 : x ∉ (⟨s2.reach, s2.inProg,
                    descriptor.enums.foldl (fun es e => (r ++ "." ++ e.name) :: es)
                      s2.enums⟩ : MarkState).reach := hx2
                obtain ⟨a, u, u', ha, hcall, hxu', hxu, hmono⟩ :=
                  foldlM_delta _ MarkState.reach MarkState.enums descriptor.fields
                    (fun u a u' _ hc => by
                      cases hk : a.kind
                      · simp only [hk, Option.some.injEq] at hc
                        exact hc ▸ (fun e he => he)
                      · simp only [hk] at hc
                        exact (markCore_frame env fuel u _ u' hc).2.2.1
                      · simp only [hk, Option.some.injEq] at hc
                        subst hc
                        exact fun e he => List.mem_cons_of_mem _ he)
                    _ s4 hf2 x hx hxs3
                cases hk : a.kind
                · rw [hk] at hcall
                  simp only [Option.some.injEq] at hcall
                  subst hcall
                  exact absurd hxu' hxu
                · rw [hk] at hcall
                  exact hmono e (ih u _ u' hcall x hxu' hxu e he)
                · rw [hk] at hcall
                  simp only [Option.some.injEq] at hcall
                  subst hcall
                  exact absurd hxu' hxu


/-- A quiescent marking state: no in-progress names and an edge-closed
reachable set. -/
def GoodS (env : Env) (s : MarkState) : Prop :=
  s.inProg = [] ∧ ∀ x, x ∈ s.reach → ∀ y, Edge env x y → y ∈ s.reach

/-- Characterization of one top-level marking call from a quiescent
state: the reachable set becomes exactly the old set plus everything
graph-reachable from the seed, the enum set grows by exactly the
contributions of the newly reachable names, and the state stays
quiescent. -/
theorem markCore_run (env : Env) {fuel : Nat} {s : MarkState} {n : String} {t : MarkState}
    (h : markCore env fuel s n = some t) (hg : GoodS env s) :
    GoodS env t ∧
    (∀ y, y ∈ t.reach ↔ y ∈ s.reach ∨ Reaches env n y) ∧
    (∀ e, e ∈ t.enums ↔ e ∈ s.enums ∨
      ∃ x, x ∈ t.reach ∧ x ∉ s.reach ∧ e ∈ enumContrib env x) := by
  have hInv : InvC env s := by
    constructor
    · intro x hx
      rw [hg.1] at hx
      exact absurd hx (List.not_mem_nil x)
    · intro x hx _ y hy
      exact hg.2 x hx y hy
  have hfr := markCore_frame env fuel s n t h
  have hcl := markCore_closed env fuel s n t h hInv
  have hsound := markCore_sound env fuel s n t h
  have htInProg : t.inProg = [] := by rw [hfr.2.1, hg.1]
  have hgt : GoodS env t := by
    refine ⟨htInProg, ?_⟩
    intro x hx y hy
    refine hcl.1.2 x hx ?_ y hy
    rw [htInProg]
    exact List.not_mem_nil x
  refine ⟨hgt, ?_, ?_⟩
  · intro y
    constructor
    · exact hsound.1 y
    · rintro (hy | hy)
      · exact hfr.1 y hy
      · induction hy with
        | base hreg => exact hcl.2 hreg
        | step hx he ih2 =>
          rename_i x y
          exact hgt.2 x ih2 y he
    
  · intro e
    constructor
    · exact hsound.2 e
    · rintro (he | ⟨x, hx1, hx2, hx3⟩)
      · exact hfr.2.2.1 e he
      · exact markCore_enum_complete env fuel s n t h x hx1 hx2 e hx3


/-- Characterization of one input-context wrapper call. -/
theorem MarkInput_run {fuel : Nat} {ta : Analyzer} {n : String} {ta' : Analyzer}
    (h : MarkTypeReachableAsInput fuel ta n = some ta')
    (hg : GoodS ta.env ta.inputState) :
    ta'.env = ta.env ∧
    ta'.outputReachableTypes = ta.outputReachableTypes ∧
    ta'.inProgressOutput = ta.inProgressOutput ∧
    GoodS ta.env ta'.inputState ∧
    (∀ y, y ∈ ta'.inputReachableTypes ↔ y ∈ ta.inputReachableTypes ∨ Reaches ta.env n y) ∧
    (∀ e, e ∈ ta'.reachableEnums ↔ e ∈ ta.reachableEnums ∨
      ∃ x, x ∈ ta'.inputReachableTypes ∧ x ∉ ta.inputReachableTypes ∧
        e ∈ enumContrib ta.env x) := by
  simp only [MarkTypeReachableAsInput, Option.map_eq_some'] at h
  obtain ⟨u, hu, hfact⟩ := h
  subst hfact
  have hrun := markCore_run ta.env hu hg
  exact ⟨rfl, rfl, rfl, hrun.1, hrun.2.1, hrun.2.2⟩

/-- Characterization of one output-context wrapper call. -/
theorem MarkOutput_run {fuel : Nat} {ta : Analyzer} {n : String} {ta' : Analyzer}
    (h : MarkTypeReachableAsOutput fuel ta n = some ta')
    (hg : GoodS ta.env ta.outputState) :
    ta'.env = ta.env ∧
    ta'.inputReachableTypes = ta.inputReachableTypes ∧
    ta'.inProgressInput = ta.inProgressInput ∧
    GoodS ta.env ta'.outputState ∧
    (∀ y, y ∈ ta'.outputReachableTypes ↔ y ∈ ta.outputReachableTypes ∨ Reaches ta.env n y) ∧
    (∀ e, e ∈ ta'.reachableEnums ↔ e ∈ ta.reachableEnums ∨
      ∃ x, x ∈ ta'.outputReachableTypes ∧ x ∉ ta.outputReachableTypes ∧
        e ∈ enumContrib ta.env x) := by
  simp only [MarkTypeReachableAsOutput, Option.map_eq_some'] at h
  obtain ⟨u, hu, hfact⟩ := h
  subst hfact
  have hrun := markCore_run ta.env hu hg
  exact ⟨rfl, rfl, rfl, hrun.1, hrun.2.1, hrun.2.2⟩

/-- Characterization of one single-set wrapper call. -/
theorem MarkSingle_run {fuel : Nat} {ta : AnalyzerS} {n : String} {ta' : AnalyzerS}
    (h : MarkTypeReachable fuel ta n = some ta')
    (hg : GoodS ta.env ta.state) :
    ta'.env = ta.env ∧
    GoodS ta.env ta'.state ∧
    (∀ y, y ∈ ta'.reachableTypes ↔ y ∈ ta.reachableTypes ∨ Reaches ta.env n y) ∧
    (∀ e, e ∈ ta'.reachableEnums ↔ e ∈ ta.reachableEnums ∨
      ∃ x, x ∈ ta'.reachableTypes ∧ x ∉ ta.reachableTypes ∧
        e ∈ enumContrib ta.env x) := by
  simp only [MarkTypeReachable, Option.map_eq_some'] at h
  obtain ⟨u, hu, hfact⟩ := h
  subst hfact
  have hrun := markCore_run ta.env hu hg
  exact ⟨rfl, hrun.1, hrun.2.1, hrun.2.2⟩

/-- GoodS only reads the reachable and in-progress components, so the
output-context state of the dual analyzer stays quiescent across an
input marking and conversely. -/
theorem GoodS_of_eq {env : Env} {s t : MarkState}
    (h1 : t.reach = s.reach) (h2 : t.inProg = s.inProg) (hg : GoodS env s) :
    GoodS env t := by
  constructor
  · rw [h2]; exact hg.1
  · rw [h1]; exact hg.2


/-- Characterization of one method step of the dual analyzer. -/
theorem analyzeMethodDual_run {fuel : Nat} {target : String} {ta : Analyzer} {m : MethodD}
    {ta' : Analyzer} (h : analyzeMethodDual fuel target ta m = some ta')
    (hg1 : GoodS ta.env ta.inputState) (hg2 : GoodS ta.env ta.outputState) :
    ta'.env = ta.env ∧
    GoodS ta.env ta'.inputState ∧ GoodS ta.env ta'.outputState ∧
    (∀ y, y ∈ ta'.inputReachableTypes ↔ y ∈ ta.inputReachableTypes ∨
      (shouldIncludeMethod target (getMethodOptions m) = true ∧ (m.inputType != "") = true ∧
        Reaches ta.env m.inputType y)) ∧
    (∀ y, y ∈ ta'.outputReachableTypes ↔ y ∈ ta.outputReachableTypes ∨
      (shouldIncludeMethod target (getMethodOptions m) = true ∧ (m.outputType != "") = true ∧
        Reaches ta.env m.outputType y)) ∧
    (∀ e, e ∈ ta'.reachableEnums ↔ e ∈ ta.reachableEnums ∨
      ∃ x, ((x ∈ ta'.inputReachableTypes ∧ x ∉ ta.inputReachableTypes) ∨
            (x ∈ ta'.outputReachableTypes ∧ x ∉ ta.outputReachableTypes)) ∧
        e ∈ enumContrib ta.env x) := by
  simp only [analyzeMethodDual] at h
  by_cases hadm : shouldIncludeMethod target (getMethodOptions m) = true
  · rw [if_neg (by simp [hadm])] at h
    -- stage 1: the input marking
    rcases hmatch : (if (m.inputType != "") = true then
        MarkTypeReachableAsInput fuel ta m.inputType else some ta) with _ | taMid
    · rw [hmatch] at h
      exact Option.noConfusion h
    rw [hmatch] at h
    dsimp only at h
    have hmid : taMid.env = ta.env ∧ taMid.outputReachableTypes = ta.outputReachableTypes ∧
        taMid.inProgressOutput = ta.inProgressOutput ∧ GoodS ta.env taMid.inputState ∧
        (∀ y, y ∈ taMid.inputReachableTypes ↔ y ∈ ta.inputReachableTypes ∨
          ((m.inputType != "") = true ∧ Reaches ta.env m.inputType y)) ∧
        (∀ e, e ∈ taMid.reachableEnums ↔ e ∈ ta.reachableEnums ∨
          ∃ x, x ∈ taMid.inputReachableTypes ∧ x ∉ ta.inputReachableTypes ∧
            e ∈ enumContrib ta.env x) := by
      by_cases hc1 : (m.inputType != "") = true
      · rw [if_pos hc1] at hmatch
        have hrun := MarkInput_run hmatch hg1
        refine ⟨hrun.1, hrun.2.1, hrun.2.2.1, hrun.2.2.2.1, ?_, hrun.2.2.2.2.2⟩
        intro y
        rw [hrun.2.2.2.2.1 y]
        simp [hc1]
      · rw [if_neg hc1] at hmatch
        injection hmatch with hmatch
        subst hmatch
        refine ⟨rfl, rfl, rfl, hg1, ?_, ?_⟩
        · intro y
          simp [hc1]
        · intro e
          constructor
          · exact fun he => Or.inl he
          · rintro (he | ⟨x, hx1, hx2, _⟩)
            · exact he
            · exact absurd hx1 hx2
    -- stage 2: the output marking
    have hgmid2 : GoodS taMid.env taMid.outputState := by
      rw [hmid.1]
      exact GoodS_of_eq (by simp [Analyzer.outputState, hmid.2.1])
        (by simp [Analyzer.outputState, hmid.2.2.1]) hg2
    have hout : ta'.env = taMid.env ∧ ta'.inputReachableTypes = taMid.inputReachableTypes ∧
        ta'.inProgressInput = taMid.inProgressInput ∧ GoodS taMid.env ta'.outputState ∧
        (∀ y, y ∈ ta'.outputReachableTypes ↔ y ∈ taMid.outputReachableTypes ∨
          ((m.outputType != "") = true ∧ Reaches taMid.env m.outputType y)) ∧
        (∀ e, e ∈ ta'.reachableEnums ↔ e ∈ taMid.reachableEnums ∨
          ∃ x, x ∈ ta'.outputReachableTypes ∧ x ∉ taMid.outputReachableTypes ∧
            e ∈ enumContrib taMid.env x) := by
      by_cases hc2 : (m.outputType != "") = true
      · rw [if_pos hc2] at h
        have hrun := MarkOutput_run h hgmid2
        refine ⟨hrun.1, hrun.2.1, hrun.2.2.1, hrun.2.2.2.1, ?_, hrun.2.2.2.2.2⟩
        intro y
        rw [hrun.2.2.2.2.1 y]
        simp [hc2]
      · rw [if_neg hc2] at h
        injection h with h
        subst h
        refine ⟨rfl, rfl, rfl, hgmid2, ?_, ?_⟩
        · intro y
          simp [hc2]
        · intro e
          constructor
          · exact fun he => Or.inl he
          · rintro (he | ⟨x, hx1, hx2, _⟩)
            · exact he
            · exact absurd hx1 hx2
    have henv : ta'.env = ta.env := hout.1.trans hmid.1
    refine ⟨henv, ?_, ?_, ?_, ?_, ?_⟩
    · exact GoodS_of_eq (by simp [Analyzer.inputState, hout.2.1])
        (by simp [Analyzer.inputState, hout.2.2.1]) hmid.2.2.2.1
    · rw [← hmid.1]
      exact hout.2.2.2.1
    · intro y
      rw [hout.2.1, hmid.2.2.2.2.1 y]
      simp [hadm]
    · intro y
      rw [hout.2.2.2.2.1 y, hmid.2.1, hmid.1]
      simp [hadm]
    · intro e
      rw [hout.2.2.2.2.2 e]
      constructor
      · rintro (he | ⟨x, hx1, hx2, hx3⟩)
        · rcases (hmid.2.2.2.2.2 e).mp he with he2 | ⟨x, hx1, hx2, hx3⟩
          · exact Or.inl he2
          · exact Or.inr ⟨x, Or.inl ⟨by rw [hout.2.1]; exact hx1, hx2⟩, hx3⟩
        · rw [hmid.1] at hx3
          exact Or.inr ⟨x, Or.inr ⟨hx1, by rw [← hmid.2.1]; exact hx2⟩, hx3⟩
      · rintro (he | ⟨x, hdel, hx3⟩)
        · exact Or.inl ((hmid.2.2.2.2.2 e).mpr (Or.inl he))
        · rcases hdel with ⟨hx1, hx2⟩ | ⟨hx1, hx2⟩
          · refine Or.inl ((hmid.2.2.2.2.2 e).mpr (Or.inr ⟨x, ?_, hx2, hx3⟩))
            rw [← hout.2.1]
            exact hx1
          · refine Or.inr ⟨x, hx1, ?_, ?_⟩
            · rw [hmid.2.1]
              exact hx2
            · rw [hmid.1]
              exact hx3
  · rw [if_pos (by simp [hadm])] at h
    injection h with h
    subst h
    refine ⟨rfl, hg1, hg2, ?_, ?_, ?_⟩
    · intro y
      simp [hadm]
    · intro y
      simp [hadm]
    · intro e
      constructor
      · exact fun he => Or.inl he
      · rintro (he | ⟨x, hdel, _⟩)
        · exact he
        · rcases hdel with ⟨hx1, hx2⟩ | ⟨hx1, hx2⟩ <;> exact absurd hx1 hx2


/-- Existential over a cons list. -/
theorem existsMemCons {α : Type _} (a : α) (l : List α) (P : α → Prop) :
    (∃ x ∈ a :: l, P x) ↔ P a ∨ ∃ x ∈ l, P x := by
  constructor
  · rintro ⟨x, hx, hP⟩
    rcases List.mem_cons.mp hx with rfl | hx
    · exact Or.inl hP
    · exact Or.inr ⟨x, hx, hP⟩
  · rintro (h | ⟨x, hx, hP⟩)
    · exact ⟨a, List.mem_cons_self a l, h⟩
    · exact ⟨x, List.mem_cons_of_mem _ hx, hP⟩

/-- Characterization of one method step of the single-set analyzer. -/
theorem analyzeMethodSingle_run {fuel : Nat} {target : String} {ta : AnalyzerS} {m : MethodD}
    {ta' : AnalyzerS} (h : analyzeMethodSingle fuel target ta m = some ta')
    (hg : GoodS ta.env ta.state) :
    ta'.env = ta.env ∧ GoodS ta.env ta'.state ∧
    (∀ y, y ∈ ta'.reachableTypes ↔ y ∈ ta.reachableTypes ∨
      (shouldIncludeMethod target (getMethodOptions m) = true ∧
        (((m.inputType != "") = true ∧ Reaches ta.env m.inputType y) ∨
         ((m.outputType != "") = true ∧ Reaches ta.env m.outputType y)))) ∧
    (∀ e, e ∈ ta'.reachableEnums ↔ e ∈ ta.reachableEnums ∨
      ∃ x, x ∈ ta'.reachableTypes ∧ x ∉ ta.reachableTypes ∧ e ∈ enumContrib ta.env x) := by
  simp only [analyzeMethodSingle] at h
  by_cases hadm : shouldIncludeMethod target (getMethodOptions m) = true
  · rw [if_neg (by simp [hadm])] at h
    rcases hmatch : (if (m.inputType != "") = true then
        MarkTypeReachable fuel ta m.inputType else some ta) with _ | taMid
    · rw [hmatch] at h
      exact Option.noConfusion h
    rw [hmatch] at h
    dsimp only at h
    have hmid : taMid.env = ta.env ∧ GoodS ta.env taMid.state ∧
        (∀ y, y ∈ taMid.reachableTypes ↔ y ∈ ta.reachableTypes ∨
          ((m.inputType != "") = true ∧ Reaches ta.env m.inputType y)) ∧
        (∀ e, e ∈ taMid.reachableEnums ↔ e ∈ ta.reachableEnums ∨
          ∃ x, x ∈ taMid.reachableTypes ∧ x ∉ ta.reachableTypes ∧
            e ∈ enumContrib ta.env x) := by
      by_cases hc1 : (m.inputType != "") = true
      · rw [if_pos hc1] at hmatch
        have hrun := MarkSingle_run hmatch hg
        refine ⟨hrun.1, hrun.2.1, ?_, hrun.2.2.2⟩
        intro y
        rw [hrun.2.2.1 y]
        simp [hc1]
      · rw [if_neg hc1] at hmatch
        injection hmatch with hmatch
        subst hmatch
        refine ⟨rfl, hg, ?_, ?_⟩
        · intro y
          simp [hc1]
        · intro e
          constructor
          · exact fun he => Or.inl he
          · rintro (he | ⟨x, hx1, hx2, _⟩)
            · exact he
            · exact absurd hx1 hx2
    have hout : ta'.env = taMid.env ∧ GoodS taMid.env ta'.state ∧
        (∀ y, y ∈ ta'.reachableTypes ↔ y ∈ taMid.reachableTypes ∨
          ((m.outputType != "") = true ∧ Reaches taMid.env m.outputType y)) ∧
        (∀ e, e ∈ ta'.reachableEnums ↔ e ∈ taMid.reachableEnums ∨
          ∃ x, x ∈ ta'.reachableTypes ∧ x ∉ taMid.reachableTypes ∧
            e ∈ enumContrib taMid.env x) := by
      have hgmid : GoodS taMid.env taMid.state := by
        rw [hmid.1]
        exact hmid.2.1
      by_cases hc2 : (m.outputType != "") = true
      · rw [if_pos hc2] at h
        have hrun := MarkSingle_run h hgmid
        refine ⟨hrun.1, hrun.2.1, ?_, hrun.2.2.2⟩
        intro y
        rw [hrun.2.2.1 y]
        simp [hc2]
      · rw [if_neg hc2] at h
        injection h with h
        subst h
        refine ⟨rfl, hgmid, ?_, ?_⟩
        · intro y
          simp [hc2]
        · intro e
          constructor
          · exact fun he => Or.inl he
          · rintro (he | ⟨x, hx1, hx2, _⟩)
            · exact he
            · exact absurd hx1 hx2
    have henv : ta'.env = ta.env := hout.1.trans hmid.1
    have hsub1 : ∀ x ∈ ta.reachableTypes, x ∈ taMid.reachableTypes :=
      fun x hx => (hmid.2.2.1 x).mpr (Or.inl hx)
    have hsub2 : ∀ x ∈ taMid.reachableTypes, x ∈ ta'.reachableTypes :=
      fun x hx => (hout.2.2.1 x).mpr (Or.inl hx)
    refine ⟨henv, by rw [← hmid.1]; exact hout.2.1, ?_, ?_⟩
    · intro y
      rw [hout.2.2.1 y, hmid.2.2.1 y, hmid.1]
      simp [hadm]
      tauto
    · intro e
      rw [hout.2.2.2 e, hmid.2.2.2 e]
      rw [hmid.1]
      constructor
      · rintro ((he | ⟨x, hx1, hx2, hx3⟩) | ⟨x, hx1, hx2, hx3⟩)
        · exact Or.inl he
        · exact Or.inr ⟨x, hsub2 x hx1, hx2, hx3⟩
        · refine Or.inr ⟨x, hx1, fun hc => hx2 (hsub1 x hc), hx3⟩
      · rintro (he | ⟨x, hx1, hx2, hx3⟩)
        · exact Or.inl (Or.inl he)
        · by_cases hxm : x ∈ taMid.reachableTypes
          · exact Or.inl (Or.inr ⟨x, hxm, hx2, hx3⟩)
          · exact Or.inr ⟨x, hx1, hxm, hx3⟩
  · rw [if_pos (by simp [hadm])] at h
    injection h with h
    subst h
    refine ⟨rfl, hg, ?_, ?_⟩
    · intro y
      simp [hadm]
    · intro e
      constructor
      · exact fun he => Or.inl he
      · rintro (he | ⟨x, hx1, hx2, _⟩)
        · exact he
        · exact absurd hx1 hx2


/-- The contribution an admitted method makes to the input-context set:
everything reachable from its nonempty input type. -/
def SeedIn (env : Env) (target : String) (m : MethodD) (y : String) : Prop :=
  shouldIncludeMethod target (getMethodOptions m) = true ∧
  (m.inputType != "") = true ∧ Reaches env m.inputType y

/-- The contribution an admitted method makes to the output-context set:
everything reachable from its nonempty output type. -/
def SeedOut (env : Env) (target : String) (m : MethodD) (y : String) : Prop :=
  shouldIncludeMethod target (getMethodOptions m) = true ∧
  (m.outputType != "") = true ∧ Reaches env m.outputType y

/-- Characterization of the dual analyzer folded over a method list. -/
theorem analyzeListDual_run (fuel : Nat) (target : String) :
    ∀ (ms : List MethodD) (ta ta' : Analyzer),
    ms.foldlM (fun ta m => analyzeMethodDual fuel target ta m) ta = some ta' →
    GoodS ta.env ta.inputState → GoodS ta.env ta.outputState →
    ta'.env = ta.env ∧ GoodS ta.env ta'.inputState ∧ GoodS ta.env ta'.outputState ∧
    (∀ y, y ∈ ta'.inputReachableTypes ↔ y ∈ ta.inputReachableTypes ∨
      ∃ m ∈ ms, SeedIn ta.env target m y) ∧
    (∀ y, y ∈ ta'.outputReachableTypes ↔ y ∈ ta.outputReachableTypes ∨
      ∃ m ∈ ms, SeedOut ta.env target m y) ∧
    (∀ e, e ∈ ta'.reachableEnums ↔ e ∈ ta.reachableEnums ∨
      ∃ x, ((x ∈ ta'.inputReachableTypes ∧ x ∉ ta.inputReachableTypes) ∨
            (x ∈ ta'.outputReachableTypes ∧ x ∉ ta.outputReachableTypes)) ∧
        e ∈ enumContrib ta.env x) := by
  intro ms
  induction ms with
  | nil =>
    intro ta ta' h hg1 hg2
    simp only [List.foldlM_nil, Option.pure_def] at h
    injection h with h
    subst h
    refine ⟨rfl, hg1, hg2, ?_, ?_, ?_⟩
    · intro y
      simp
    · intro y
      simp
    · intro e
      constructor
      · exact fun he => Or.inl he
      · rintro (he | ⟨x, (⟨hx1, hx2⟩ | ⟨hx1, hx2⟩), _⟩)
        · exact he
        · exact absurd hx1 hx2
        · exact absurd hx1 hx2
  | cons m ms ih =>
    intro ta ta' h hg1 hg2
    rw [List.foldlM_cons] at h
    obtain ⟨taMid, h1, h2⟩ := Option.bind_eq_some.mp h
    have hm := analyzeMethodDual_run h1 hg1 hg2
    have hgm1 : GoodS taMid.env taMid.inputState := by
      rw [hm.1]
      exact hm.2.1
    have hgm2 : GoodS taMid.env taMid.outputState := by
      rw [hm.1]
      exact hm.2.2.1
    have hrest := ih taMid ta' h2 hgm1 hgm2
    rw [hm.1] at hrest
    have hsub1 : ∀ x ∈ ta.inputReachableTypes, x ∈ taMid.inputReachableTypes :=
      fun x hx => (hm.2.2.2.1 x).mpr (Or.inl hx)
    have hsub1' : ∀ x ∈ taMid.inputReachableTypes, x ∈ ta'.inputReachableTypes :=
      fun x hx => (hrest.2.2.2.1 x).mpr (Or.inl hx)
    have hsub2 : ∀ x ∈ ta.outputReachableTypes, x ∈ taMid.outputReachableTypes :=
      fun x hx => (hm.2.2.2.2.1 x).mpr (Or.inl hx)
    have hsub2' : ∀ x ∈ taMid.outputReachableTypes, x ∈ ta'.outputReachableTypes :=
      fun x hx => (hrest.2.2.2.2.1 x).mpr (Or.inl hx)
    refine ⟨hrest.1, hrest.2.1, hrest.2.2.1, ?_, ?_, ?_⟩
    · intro y
      rw [existsMemCons]
      rw [hrest.2.2.2.1 y, hm.2.2.2.1 y]
      simp only [SeedIn]
      tauto
    · intro y
      rw [existsMemCons]
      rw [hrest.2.2.2.2.1 y, hm.2.2.2.2.1 y]
      simp only [SeedOut]
      tauto
    · intro e
      rw [hrest.2.2.2.2.2 e, hm.2.2.2.2.2 e]
      constructor
      · rintro ((he | ⟨x, hx, hx3⟩) | ⟨x, hx, hx3⟩)
        · exact Or.inl he
        · rcases hx with ⟨hx1, hx2⟩ | ⟨hx1, hx2⟩
          · exact Or.inr ⟨x, Or.inl ⟨hsub1' x hx1, hx2⟩, hx3⟩
          · exact Or.inr ⟨x, Or.inr ⟨hsub2' x hx1, hx2⟩, hx3⟩
        · rcases hx with ⟨hx1, hx2⟩ | ⟨hx1, hx2⟩
          · exact Or.inr ⟨x, Or.inl ⟨hx1, fun hc => hx2 (hsub1 x hc)⟩, hx3⟩
          · exact Or.inr ⟨x, Or.inr ⟨hx1, fun hc => hx2 (hsub2 x hc)⟩, hx3⟩
      · rintro (he | ⟨x, hx, hx3⟩)
        · exact Or.inl (Or.inl he)
        · rcases hx with ⟨hx1, hx2⟩ | ⟨hx1, hx2⟩
          · by_cases hxm : x ∈ taMid.inputReachableTypes
            · exact Or.inl (Or.inr ⟨x, Or.inl ⟨hxm, hx2⟩, hx3⟩)
            · exact Or.inr ⟨x, Or.inl ⟨hx1, hxm⟩, hx3⟩
          · by_cases hxm : x ∈ taMid.outputReachableTypes
            · exact Or.inl (Or.inr ⟨x, Or.inr ⟨hxm, hx2⟩, hx3⟩)
            · exact Or.inr ⟨x, Or.inr ⟨hx1, hxm⟩, hx3⟩


/-- Characterization of the dual analyzer over a full service list. -/
theorem analyzeServicesDual_run (fuel : Nat) (target : String) :
    ∀ (svcs : List ServiceD) (ta ta' : Analyzer),
    AnalyzeRPCDependencies fuel ta svcs target = some ta' →
    GoodS ta.env ta.inputState → GoodS ta.env ta.outputState →
    ta'.env = ta.env ∧ GoodS ta.env ta'.inputState ∧ GoodS ta.env ta'.outputState ∧
    (∀ y, y ∈ ta'.inputReachableTypes ↔ y ∈ ta.inputReachableTypes ∨
      ∃ svc ∈ svcs, ∃ m ∈ svc.methods, SeedIn ta.env target m y) ∧
    (∀ y, y ∈ ta'.outputReachableTypes ↔ y ∈ ta.outputReachableTypes ∨
      ∃ svc ∈ svcs, ∃ m ∈ svc.methods, SeedOut ta.env target m y) ∧
    (∀ e, e ∈ ta'.reachableEnums ↔ e ∈ ta.reachableEnums ∨
      ∃ x, ((x ∈ ta'.inputReachableTypes ∧ x ∉ ta.inputReachableTypes) ∨
            (x ∈ ta'.outputReachableTypes ∧ x ∉ ta.outputReachableTypes)) ∧
        e ∈ enumContrib ta.env x) := by
  intro svcs
  induction svcs with
  | nil =>
    intro ta ta' h hg1 hg2
    simp only [AnalyzeRPCDependencies, List.foldlM_nil, Option.pure_def] at h
    injection h with h
    subst h
    refine ⟨rfl, hg1, hg2, ?_, ?_, ?_⟩
    · intro y
      simp
    · intro y
      simp
    · intro e
      constructor
      · exact fun he => Or.inl he
      · rintro (he | ⟨x, (⟨hx1, hx2⟩ | ⟨hx1, hx2⟩), _⟩)
        · exact he
        · exact absurd hx1 hx2
        · exact absurd hx1 hx2
  | cons svc svcs ih =>
    intro ta ta' h hg1 hg2
    simp only [AnalyzeRPCDependencies] at h
    rw [List.foldlM_cons] at h
    obtain ⟨taMid, h1, h2⟩ := Option.bind_eq_some.mp h
    have hm := analyzeListDual_run fuel target svc.methods ta taMid h1 hg1 hg2
    have hgm1 : GoodS taMid.env taMid.inputState := by
      rw [hm.1]
      exact hm.2.1
    have hgm2 : GoodS taMid.env taMid.outputState := by
      rw [hm.1]
      exact hm.2.2.1
    have h2' : AnalyzeRPCDependencies fuel taMid svcs target = some ta' := h2
    have hrest := ih taMid ta' h2' hgm1 hgm2
    rw [hm.1] at hrest
    have hsub1 : ∀ x ∈ ta.inputReachableTypes, x ∈ taMid.inputReachableTypes :=
      fun x hx => (hm.2.2.2.1 x).mpr (Or.inl hx)
    have hsub1' : ∀ x ∈ taMid.inputReachableTypes, x ∈ ta'.inputReachableTypes :=
      fun x hx => (hrest.2.2.2.1 x).mpr (Or.inl hx)
    have hsub2 : ∀ x ∈ ta.outputReachableTypes, x ∈ taMid.outputReachableTypes :=
      fun x hx => (hm.2.2.2.2.1 x).mpr (Or.inl hx)
    have hsub2' : ∀ x ∈ taMid.outputReachableTypes, x ∈ ta'.outputReachableTypes :=
      fun x hx => (hrest.2.2.2.2.1 x).mpr (Or.inl hx)
    refine ⟨hrest.1, hrest.2.1, hrest.2.2.1, ?_, ?_, ?_⟩
    · intro y
      rw [existsMemCons svc svcs (fun s => ∃ m ∈ s.methods, SeedIn ta.env target m y)]
      rw [hrest.2.2.2.1 y, hm.2.2.2.1 y]
      exact or_assoc
    · intro y
      rw [existsMemCons svc svcs (fun s => ∃ m ∈ s.methods, SeedOut ta.env target m y)]
      rw [hrest.2.2.2.2.1 y, hm.2.2.2.2.1 y]
      exact or_assoc
    · intro e
      rw [hrest.2.2.2.2.2 e, hm.2.2.2.2.2 e]
      constructor
      · rintro ((he | ⟨x, hx, hx3⟩) | ⟨x, hx, hx3⟩)
        · exact Or.inl he
        · rcases hx with ⟨hx1, hx2⟩ | ⟨hx1, hx2⟩
          · exact Or.inr ⟨x, Or.inl ⟨hsub1' x hx1, hx2⟩, hx3⟩
          · exact Or.inr ⟨x, Or.inr ⟨hsub2' x hx1, hx2⟩, hx3⟩
        · rcases hx with ⟨hx1, hx2⟩ | ⟨hx1, hx2⟩
          · exact Or.inr ⟨x, Or.inl ⟨hx1, fun hc => hx2 (hsub1 x hc)⟩, hx3⟩
          · exact Or.inr ⟨x, Or.inr ⟨hx1, fun hc => hx2 (hsub2 x hc)⟩, hx3⟩
      · rintro (he | ⟨x, hx, hx3⟩)
        · exact Or.inl (Or.inl he)
        · rcases hx with ⟨hx1, hx2⟩ | ⟨hx1, hx2⟩
          · by_cases hxm : x ∈ taMid.inputReachableTypes
            · exact Or.inl (Or.inr ⟨x, Or.inl ⟨hxm, hx2⟩, hx3⟩)
            · exact Or.inr ⟨x, Or.inl ⟨hx1, hxm⟩, hx3⟩
          · by_cases hxm : x ∈ taMid.outputReachableTypes
            · exact Or.inl (Or.inr ⟨x, Or.inr ⟨hxm, hx2⟩, hx3⟩)
            · exact Or.inr ⟨x, Or.inr ⟨hx1, hxm⟩, hx3⟩


/-- Characterization of the single-set analyzer folded over a method list. -/
theorem analyzeListSingle_run (fuel : Nat) (target : String) :
    ∀ (ms : List MethodD) (ta ta' : AnalyzerS),
    ms.foldlM (fun ta m => analyzeMethodSingle fuel target ta m) ta = some ta' →
    GoodS ta.env ta.state →
    ta'.env = ta.env ∧ GoodS ta.env ta'.state ∧
    (∀ y, y ∈ ta'.reachableTypes ↔ y ∈ ta.reachableTypes ∨
      ∃ m ∈ ms, SeedIn ta.env target m y ∨ SeedOut ta.env target m y) ∧
    (∀ e, e ∈ ta'.reachableEnums ↔ e ∈ ta.reachableEnums ∨
      ∃ x, x ∈ ta'.reachableTypes ∧ x ∉ ta.reachableTypes ∧
        e ∈ enumContrib ta.env x) := by
  intro ms
  induction ms with
  | nil =>
    intro ta ta' h hg
    simp only [List.foldlM_nil, Option.pure_def] at h
    injection h with h
    subst h
    refine ⟨rfl, hg, ?_, ?_⟩
    · intro y
      simp
    · intro e
      constructor
      · exact fun he => Or.inl he
      · rintro (he | ⟨x, hx1, hx2, _⟩)
        · exact he
        · exact absurd hx1 hx2
  | cons m ms ih =>
    intro ta ta' h hg
    rw [List.foldlM_cons] at h
    obtain ⟨taMid, h1, h2⟩ := Option.bind_eq_some.mp h
    have hm := analyzeMethodSingle_run h1 hg
    have hgm : GoodS taMid.env taMid.state := by
      rw [hm.1]
      exact hm.2.1
    have hrest := ih taMid ta' h2 hgm
    rw [hm.1] at hrest
    have hsub : ∀ x ∈ ta.reachableTypes, x ∈ taMid.reachableTypes :=
      fun x hx => (hm.2.2.1 x).mpr (Or.inl hx)
    have hsub' : ∀ x ∈ taMid.reachableTypes, x ∈ ta'.reachableTypes :=
      fun x hx => (hrest.2.2.1 x).mpr (Or.inl hx)
    refine ⟨hrest.1, hrest.2.1, ?_, ?_⟩
    · intro y
      rw [existsMemCons m ms
        (fun m => SeedIn ta.env target m y ∨ SeedOut ta.env target m y)]
      rw [hrest.2.2.1 y, hm.2.2.1 y]
      simp only [SeedIn, SeedOut]
      constructor
      · rintro ((ha | ⟨hadm, hio⟩) | ht)
        · exact Or.inl ha
        · rcases hio with ⟨hc, hr⟩ | ⟨hc, hr⟩
          · exact Or.inr (Or.inl (Or.inl ⟨hadm, hc, hr⟩))
          · exact Or.inr (Or.inl (Or.inr ⟨hadm, hc, hr⟩))
        · exact Or.inr (Or.inr ht)
      · rintro (ha | hs | ht)
        · exact Or.inl (Or.inl ha)
        · rcases hs with ⟨hadm, hc, hr⟩ | ⟨hadm, hc, hr⟩
          · exact Or.inl (Or.inr ⟨hadm, Or.inl ⟨hc, hr⟩⟩)
          · exact Or.inl (Or.inr ⟨hadm, Or.inr ⟨hc, hr⟩⟩)
        · exact Or.inr ht
    · intro e
      rw [hrest.2.2.2 e, hm.2.2.2 e]
      constructor
      · rintro ((he | ⟨x, hx1, hx2, hx3⟩) | ⟨x, hx1, hx2, hx3⟩)
        · exact Or.inl he
        · exact Or.inr ⟨x, hsub' x hx1, hx2, hx3⟩
        · exact Or.inr ⟨x, hx1, fun hc => hx2 (hsub x hc), hx3⟩
      · rintro (he | ⟨x, hx1, hx2, hx3⟩)
        · exact Or.inl (Or.inl he)
        · by_cases hxm : x ∈ taMid.reachableTypes
          · exact Or.inl (Or.inr ⟨x, hxm, hx2, hx3⟩)
          · exact Or.inr ⟨x, hx1, hxm, hx3⟩

/-- Characterization of the single-set analyzer over a full service list. -/
theorem analyzeServicesSingle_run (fuel : Nat) (target : String) :
    ∀ (svcs : List ServiceD) (ta ta' : AnalyzerS),
    AnalyzeRPCDependenciesS fuel ta svcs target = some ta' →
    GoodS ta.env ta.state →
    ta'.env = ta.env ∧ GoodS ta.env ta'.state ∧
    (∀ y, y ∈ ta'.reachableTypes ↔ y ∈ ta.reachableTypes ∨
      ∃ svc ∈ svcs, ∃ m ∈ svc.methods,
        SeedIn ta.env target m y ∨ SeedOut ta.env target m y) ∧
    (∀ e, e ∈ ta'.reachableEnums ↔ e ∈ ta.reachableEnums ∨
      ∃ x, x ∈ ta'.reachableTypes ∧ x ∉ ta.reachableTypes ∧
        e ∈ enumContrib ta.env x) := by
  intro svcs
  induction svcs with
  | nil =>
    intro ta ta' h hg
    simp only [AnalyzeRPCDependenciesS, List.foldlM_nil, Option.pure_def] at h
    injection h with h
    subst h
    refine ⟨rfl, hg, ?_, ?_⟩
    · intro y
      simp
    · intro e
      constructor
      · exact fun he => Or.inl he
      · rintro (he | ⟨x, hx1, hx2, _⟩)
        · exact he
        · exact absurd hx1 hx2
  | cons svc svcs ih =>
    intro ta ta' h hg
    simp only [AnalyzeRPCDependenciesS] at h
    rw [List.foldlM_cons] at h
    obtain ⟨taMid, h1, h2⟩ := Option.bind_eq_some.mp h
    have hm := analyzeListSingle_run fuel target svc.methods ta taMid h1 hg
    have hgm : GoodS taMid.env taMid.state := by
      rw [hm.1]
      exact hm.2.1
    have h2' : AnalyzeRPCDependenciesS fuel taMid svcs target = some ta' := h2
    have hrest := ih taMid ta' h2' hgm
    rw [hm.1] at hrest
    have hsub : ∀ x ∈ ta.reachableTypes, x ∈ taMid.reachableTypes :=
      fun x hx => (hm.2.2.1 x).mpr (Or.inl hx)
    have hsub' : ∀ x ∈ taMid.reachableTypes, x ∈ ta'.reachableTypes :=
      fun x hx => (hrest.2.2.1 x).mpr (Or.inl hx)
    refine ⟨hrest.1, hrest.2.1, ?_, ?_⟩
    · intro y
      rw [existsMemCons svc svcs (fun s => ∃ m ∈ s.methods,
        SeedIn ta.env target m y ∨ SeedOut ta.env target m y)]
      rw [hrest.2.2.1 y, hm.2.2.1 y]
      exact or_assoc
    · intro e
      rw [hrest.2.2.2 e, hm.2.2.2 e]
      constructor
      · rintro ((he | ⟨x, hx1, hx2, hx3⟩) | ⟨x, hx1, hx2, hx3⟩)
        · exact Or.inl he
        · exact Or.inr ⟨x, hsub' x hx1, hx2, hx3⟩
        · exact Or.inr ⟨x, hx1, fun hc => hx2 (hsub x hc), hx3⟩
      · rintro (he | ⟨x, hx1, hx2, hx3⟩)
        · exact Or.inl (Or.inl he)
        · by_cases hxm : x ∈ taMid.reachableTypes
          · exact Or.inl (Or.inr ⟨x, hxm, hx2, hx3⟩)
          · exact Or.inr ⟨x, hx1, hxm, hx3⟩


/-- A bounded existential over a disjunction splits into two bounded
existentials. -/
theorem existsMemOr {α β : Type _} (l : List α) (f : α → List β) (P Q : β → Prop) :
    (∃ a ∈ l, ∃ b ∈ f a, P b ∨ Q b) ↔
      (∃ a ∈ l, ∃ b ∈ f a, P b) ∨ ∃ a ∈ l, ∃ b ∈ f a, Q b := by
  constructor
  · rintro ⟨a, ha, b, hb, hPQ | hPQ⟩
    · exact Or.inl ⟨a, ha, b, hb, hPQ⟩
    · exact Or.inr ⟨a, ha, b, hb, hPQ⟩
  · rintro (⟨a, ha, b, hb, hP⟩ | ⟨a, ha, b, hb, hP⟩)
    · exact ⟨a, ha, b, hb, Or.inl hP⟩
    · exact ⟨a, ha, b, hb, Or.inr hP⟩

/-- Test fixture: a service with one admitted method over the separation
scenario messages. -/
def eqService : ServiceD :=
  { name := "Eq", methods :=
      [ { name := "M", inputType := ".test.InputMessage",
          outputType := ".test.OutputMessage", options := none } ] }

/-- The single-set analyzer result on the equivalence fixture. -/
def eqSingleRes : AnalyzerS :=
  { env := buildEnv [sepFile],
    reachableTypes := [".test.OutputMessage", ".test.InputMessage"],
    reachableEnums := [], inProgress := [] }

/-- The dual-context analyzer result on the equivalence fixture. -/
def eqDualRes : Analyzer :=
  { env := buildEnv [sepFile],
    inputReachableTypes := [".test.InputMessage"],
    outputReachableTypes := [".test.OutputMessage"],
    reachableEnums := [], inProgressInput := [], inProgressOutput := [] }

/-- C8: for every proto-file list, service list, audience target, and
fuel values for which both analyzer variants return, the single-set
analyzer's reachable-type set is exactly the union of the dual-context
analyzer's input-reachable and output-reachable sets, and the two
reachable-enum sets coincide: the single-set form is the degenerate
union of the dual-context form. -/
theorem single_dual_equivalence (files : List FileD) (services : List ServiceD)
    (target : String) (fuel1 fuel2 : Nat) (s1 : AnalyzerS) (s2 : Analyzer)
    (h1 : AnalyzeRPCDependenciesS fuel1 (NewTypeAnalyzerS files) services target = some s1)
    (h2 : AnalyzeRPCDependencies fuel2 (NewTypeAnalyzer files) services target = some s2) :
    (∀ y, y ∈ s1.reachableTypes ↔
      y ∈ s2.inputReachableTypes ∨ y ∈ s2.outputReachableTypes) ∧
    (∀ e, e ∈ s1.reachableEnums ↔ e ∈ s2.reachableEnums) := by
  have hg1 : GoodS (NewTypeAnalyzerS files).env (NewTypeAnalyzerS files).state :=
    ⟨rfl, fun x hx => absurd hx (List.not_mem_nil x)⟩
  have hg2i : GoodS (NewTypeAnalyzer files).env (NewTypeAnalyzer files).inputState :=
    ⟨rfl, fun x hx => absurd hx (List.not_mem_nil x)⟩
  have hg2o : GoodS (NewTypeAnalyzer files).env (NewTypeAnalyzer files).outputState :=
    ⟨rfl, fun x hx => absurd hx (List.not_mem_nil x)⟩
  have hA := analyzeServicesSingle_run fuel1 target services (NewTypeAnalyzerS files) s1 h1 hg1
  have hB := analyzeServicesDual_run fuel2 target services (NewTypeAnalyzer files) s2 h2
    hg2i hg2o
  have henvS : (NewTypeAnalyzerS files).env = buildEnv files := rfl
  have henvD : (NewTypeAnalyzer files).env = buildEnv files := rfl
  rw [henvS] at hA
  rw [henvD] at hB
  have htypes : ∀ y, y ∈ s1.reachableTypes ↔
      y ∈ s2.inputReachableTypes ∨ y ∈ s2.outputReachableTypes := by
    intro y
    rw [hA.2.2.1 y, hB.2.2.2.1 y, hB.2.2.2.2.1 y]
    constructor
    · rintro (hy | hex)
      · exact absurd hy (List.not_mem_nil y)
      · rcases (existsMemOr services (fun s => s.methods)
            (fun m => SeedIn (buildEnv files) target m y)
            (fun m => SeedOut (buildEnv files) target m y)).mp hex with h | h
        · exact Or.inl (Or.inr h)
        · exact Or.inr (Or.inr h)
    · rintro ((hy | hex) | (hy | hex))
      · exact absurd hy (List.not_mem_nil y)
      · exact Or.inr ((existsMemOr services (fun s => s.methods)
          (fun m => SeedIn (buildEnv files) target m y)
          (fun m => SeedOut (buildEnv files) target m y)).mpr (Or.inl hex))
      · exact absurd hy (List.not_mem_nil y)
      · exact Or.inr ((existsMemOr services (fun s => s.methods)
          (fun m => SeedIn (buildEnv files) target m y)
          (fun m => SeedOut (buildEnv files) target m y)).mpr (Or.inr hex))
  refine ⟨htypes, ?_⟩
  intro e
  rw [hA.2.2.2 e, hB.2.2.2.2.2 e]
  constructor
  · rintro (he | ⟨x, hx1, hx2, hx3⟩)
    · exact absurd he (List.not_mem_nil e)
    · rcases (htypes x).mp hx1 with hin | hout
      · exact Or.inr ⟨x, Or.inl ⟨hin, List.not_mem_nil x⟩, hx3⟩
      · exact Or.inr ⟨x, Or.inr ⟨hout, List.not_mem_nil x⟩, hx3⟩
  · rintro (he | ⟨x, hx, hx3⟩)
    · exact absurd he (List.not_mem_nil e)
    · rcases hx with ⟨hin, _⟩ | ⟨hout, _⟩
      · exact Or.inr ⟨x, (htypes x).mpr (Or.inl hin), List.not_mem_nil x, hx3⟩
      · exact Or.inr ⟨x, (htypes x).mpr (Or.inr hout), List.not_mem_nil x, hx3⟩

/-- Witness for C8: on the separation fixture with one admitted method
both analyzers return, and the single set answers a membership query
exactly as the union of the two dual sets does. -/
theorem single_dual_equivalence_witness :
    (AnalyzeRPCDependenciesS 3 (NewTypeAnalyzerS [sepFile]) [eqService] "all" =
        some eqSingleRes ∧
      AnalyzeRPCDependencies 3 (NewTypeAnalyzer [sepFile]) [eqService] "all" =
        some eqDualRes) ∧
    (".test.InputMessage" ∈ eqSingleRes.reachableTypes ↔
      ".test.InputMessage" ∈ eqDualRes.inputReachableTypes ∨
      ".test.InputMessage" ∈ eqDualRes.outputReachableTypes) :=
  ⟨⟨rfl, rfl⟩,
   (single_dual_equivalence [sepFile] [eqService] "all" 3 3 eqSingleRes eqDualRes
     rfl rfl).1 ".test.InputMessage"⟩

end ProtoGql
